import Mathlib

/-!
gowebpusher: key decoding, salt generation and VAPID key output.

A shallow embedding of `gowebpusher.go` (package `gowebpusher`) together with the
parts of the Go standard library it calls (`encoding/base64`, `io.ReadFull`,
`crypto/elliptic`), followed by theorems about the embedded functions.

Conventions of the embedding:

* a Go `[]byte` and a Go `string` are both `List Byte` (a Go string is a byte
  sequence; `stringBytes` converts an ASCII literal);
* a Go `error` is `Option GoError`, `none` being `nil`;
* `crypto/rand.Reader` is an explicit byte stream `List Byte`: the bytes the
  reader delivers before it fails; a read past its end is a failed read;
* standard output is an explicit list of printed lines.
-/

namespace Gowebpusher

set_option maxRecDepth 100000

/-! ## Bytes and errors -/

/-- A Go `byte`. -/
abbrev Byte := Fin 256

/-- Go conversion `byte(n)` of an unsigned integer: truncation to 8 bits. -/
def byte (n : Nat) : Byte := ⟨n % 256, Nat.mod_lt n (by decide)⟩

/-- The bytes of an ASCII string literal. -/
def stringBytes (s : String) : List Byte := s.toList.map (fun c => byte c.toNat)

/-- The error values that can arise: `base64.CorruptInputError(offset)`, `io.EOF` and
`io.ErrUnexpectedEOF`. -/
inductive GoError where
  | CorruptInputError (offset : Nat)
  | EOF
  | ErrUnexpectedEOF
deriving DecidableEq, Repr

/-! ## encoding/base64 -/

/-- Go `base64.Encoding`: the 64-byte alphabet `encode`, the padding character
(`none` is `NoPadding`) and the `strict` flag. The 256-entry `decodeMap` is
derived from the alphabet as `NewEncoding` does. -/
structure Encoding where
  encode : List Byte
  padChar : Option Byte
  strict : Bool

/-- The two loops of `NewEncoding` that fill `decodeMap`: every entry starts at `0xFF`,
then `decodeMap[encoder[i]] = byte(i)` for `i = 0, 1, ...` in order. -/
def buildDecodeMap : List Byte → Nat → (Byte → Nat) → Byte → Nat
  | [], _, m => m
  | e :: es, i, m => buildDecodeMap es (i + 1) (fun c => if c = e then i else m c)

/-- Go `enc.decodeMap[c]`. -/
def Encoding.decodeMap (enc : Encoding) : Byte → Nat :=
  buildDecodeMap enc.encode 0 (fun _ => 0xFF)

/-- Go `enc.encode[i]`. -/
def Encoding.encodeAt (enc : Encoding) (i : Nat) : Byte := enc.encode.getD i 0

/-- Go `const encodeStd`. -/
def encodeStd : List Byte :=
  stringBytes "ABCDEFGHIJKLMNOPQRSTUVWXYZabcdefghijklmnopqrstuvwxyz0123456789+/"

/-- Go `const encodeURL`. -/
def encodeURL : List Byte :=
  stringBytes "ABCDEFGHIJKLMNOPQRSTUVWXYZabcdefghijklmnopqrstuvwxyz0123456789-_"

/-- Go `StdPadding`, the character `=`. -/
def StdPadding : Byte := 61

/-- Go `base64.StdEncoding = NewEncoding(encodeStd)`. -/
def StdEncoding : Encoding := ⟨encodeStd, some StdPadding, false⟩

/-- Go `base64.URLEncoding = NewEncoding(encodeURL)`. -/
def URLEncoding : Encoding := ⟨encodeURL, some StdPadding, false⟩

/-- Go `base64.RawURLEncoding = URLEncoding.WithPadding(NoPadding)`. -/
def RawURLEncoding : Encoding := ⟨encodeURL, none, false⟩

/-- Go `(*Encoding).Encode`, returning the destination buffer: full 3-byte groups give
4 characters; a remainder of 2 or 1 bytes gives 3 or 2 characters, followed by padding
up to 4 unless the encoding has `NoPadding`. `EncodeToString` returns the same bytes
as a string. -/
def Encoding.Encode (enc : Encoding) : List Byte → List Byte
  | a :: b :: c :: rest =>
    let val := a.val <<< 16 ||| b.val <<< 8 ||| c.val
    enc.encodeAt (val >>> 18 &&& 0x3F) :: enc.encodeAt (val >>> 12 &&& 0x3F) ::
      enc.encodeAt (val >>> 6 &&& 0x3F) :: enc.encodeAt (val &&& 0x3F) :: Encode enc rest
  | [a, b] =>
    let val := a.val <<< 16 ||| b.val <<< 8
    [enc.encodeAt (val >>> 18 &&& 0x3F), enc.encodeAt (val >>> 12 &&& 0x3F),
      enc.encodeAt (val >>> 6 &&& 0x3F)] ++
      (match enc.padChar with
       | some p => [p]
       | none => [])
  | [a] =>
    let val := a.val <<< 16
    [enc.encodeAt (val >>> 18 &&& 0x3F), enc.encodeAt (val >>> 12 &&& 0x3F)] ++
      (match enc.padChar with
       | some p => [p, p]
       | none => [])
  | [] => []

/-- Go `(*Encoding).EncodeToString`. -/
def Encoding.EncodeToString (enc : Encoding) (src : List Byte) : List Byte := enc.Encode src

/-- What `DecodeString` returns: the slice `dbuf[:n]` and the error. -/
structure Decoded where
  bytes : List Byte
  err : Option GoError
deriving DecidableEq, Repr

/-- What `decodeQuantum` returns: the new source index `nsi` (with the unread input
`src[nsi:]`), the bytes written and counted (`dst[:n]`), and the error. -/
structure Quantum where
  nsi : Nat
  rest : List Byte
  out : List Byte
  err : Option GoError
deriving DecidableEq, Repr

/-- The three bytes `dbuf[0], dbuf[1], dbuf[2]` after "Convert 4x 6bit source bytes into
3 bytes" in `decodeQuantum`; `dbuf` holds the sextets read so far, the missing ones
being the zero values of the Go array. -/
def quantumOut (dbuf : List Nat) : List Byte :=
  let val := dbuf.getD 0 0 <<< 18 ||| dbuf.getD 1 0 <<< 12 ||| dbuf.getD 2 0 <<< 6 ||| dbuf.getD 3 0
  [byte (val >>> 16), byte (val >>> 8), byte (val >>> 0)]

/-- The end of `decodeQuantum`, after the `for` loop has read `dlen` sextets: `dlen - 1`
bytes are written and counted, unless the encoding is strict and the unused low bits of a
quantum of 3 or 2 sextets are not zero. `err` is the pending "trailing garbage" error,
returned together with the bytes. -/
def finishQuantum (enc : Encoding) (dbuf : List Nat) (dlen si : Nat) (rest : List Byte)
    (err : Option GoError) : Quantum :=
  let out := quantumOut dbuf
  if dlen = 3 then
    if enc.strict ∧ out.getD 2 0 ≠ 0 then ⟨si, rest, [], some (.CorruptInputError (si - 1))⟩
    else ⟨si, rest, out.take 2, err⟩
  else if dlen = 2 then
    if enc.strict ∧ (out.getD 1 0 ≠ 0 ∨ out.getD 2 0 ≠ 0) then
      ⟨si, rest, [], some (.CorruptInputError (si - 2))⟩
    else ⟨si, rest, out.take 1, err⟩
  else ⟨si, rest, out.take (dlen - 1), err⟩

/-- The loops "skip over newlines" of `decodeQuantum`: the remaining input and the new
index. -/
def skipNewlines : List Byte → Nat → List Byte × Nat
  | c :: rest, si => if c = 10 ∨ c = 13 then skipNewlines rest (si + 1) else (c :: rest, si)
  | [], si => ([], si)

/-- The end of the padding branch of `decodeQuantum`: skip newlines, flag trailing
garbage, convert the quantum. -/
def padTail (enc : Encoding) (src : List Byte) (si : Nat) (dbuf : List Nat) : Quantum :=
  let r := skipNewlines src si
  finishQuantum enc dbuf dbuf.length r.2 r.1
    (if r.1.isEmpty then none else some (.CorruptInputError r.2))

/-- The branch "We've reached the end and there's padding" of `decodeQuantum`, entered
after a padding character was read at quantum position `j = dbuf.length`; `si` is already
past that character and `len` is `len(src)`. -/
def decodePadding (enc : Encoding) (len : Nat) (src : List Byte) (si : Nat)
    (dbuf : List Nat) : Quantum :=
  let j := dbuf.length
  if j = 0 ∨ j = 1 then ⟨si, src, [], some (.CorruptInputError (si - 1))⟩
  else if j = 2 then
    let r := skipNewlines src si
    match r.1 with
    | [] => ⟨r.2, [], [], some (.CorruptInputError len)⟩
    | c :: src2 =>
      if some c ≠ enc.padChar then ⟨r.2, c :: src2, [], some (.CorruptInputError (r.2 - 1))⟩
      else padTail enc src2 (r.2 + 1) dbuf
  else padTail enc src si dbuf

/-- Go `(*Encoding).decodeQuantum(dst, src, si)`, as the `for j` loop from the state
reached so far: the unread input `src[si:]`, the index `si`, and the sextets `dbuf` read
in this quantum (`j = dbuf.length`; the call from `Decode` starts with none). A newline
leaves `j` as it is; the fourth sextet ends the loop with `dlen = 4`. -/
def decodeQuantum (enc : Encoding) (len : Nat) : List Byte → Nat → List Nat → Quantum
  | [], si, dbuf =>
    let j := dbuf.length
    if j = 0 then ⟨si, [], [], none⟩
    else if j = 1 ∨ enc.padChar ≠ none then ⟨si, [], [], some (.CorruptInputError (si - j))⟩
    else finishQuantum enc dbuf j si [] none
  | c :: rest, si, dbuf =>
    let out := enc.decodeMap c
    if out ≠ 0xFF then
      if dbuf.length = 3 then finishQuantum enc (dbuf ++ [out]) 4 (si + 1) rest none
      else decodeQuantum enc len rest (si + 1) (dbuf ++ [out])
    else if c = 10 ∨ c = 13 then decodeQuantum enc len rest (si + 1) dbuf
    else if some c ≠ enc.padChar then ⟨si + 1, rest, [], some (.CorruptInputError si)⟩
    else decodePadding enc len rest (si + 1) dbuf

/-- Go `(*Encoding).Decode`: the loop `for si < len(src)` around `decodeQuantum`, which
returns as soon as a quantum reports an error. `fuel` bounds the number of passes; every
pass without error consumes input, so `len(src) + 1` passes are never used up
(`Decode_eq_decodeLoop`). The 8- and 4-character fast paths of `Decode` produce the same
bytes as `decodeQuantum` on characters of the alphabet and are not modelled apart. -/
def Decode (enc : Encoding) (len : Nat) : Nat → List Byte → Nat → List Byte → Decoded
  | 0, _, _, dst => ⟨dst, none⟩
  | fuel + 1, src, si, dst =>
    if src.isEmpty then ⟨dst, none⟩
    else
      let q := decodeQuantum enc len src si []
      if q.err ≠ none then ⟨dst ++ q.out, q.err⟩
      else Decode enc len fuel q.rest q.nsi (dst ++ q.out)

/-- Go `(*Encoding).DecodeString`: `dbuf[:n], err`. -/
def Encoding.DecodeString (enc : Encoding) (s : List Byte) : Decoded :=
  Decode enc s.length (s.length + 1) s 0 []

/-- The decoder as a single pass over the text, used in the proofs: `Decode` and
`decodeQuantum` fused into one recursion on the unread input, with the sextets `dbuf` of
the quantum in progress and the output `dst[:n]` so far carried along. It computes what
`Decode` computes (`Decode_eq_decodeLoop`). -/
def decodeLoop (enc : Encoding) (len : Nat) :
    List Byte → Nat → List Nat → List Byte → Decoded
  | [], si, dbuf, dst =>
    let j := dbuf.length
    if j = 0 then ⟨dst, none⟩
    else if j = 1 ∨ enc.padChar ≠ none then ⟨dst, some (.CorruptInputError (si - j))⟩
    else ⟨dst ++ (finishQuantum enc dbuf j si [] none).out,
      (finishQuantum enc dbuf j si [] none).err⟩
  | c :: rest, si, dbuf, dst =>
    let out := enc.decodeMap c
    if out ≠ 0xFF then
      if dbuf.length = 3 then decodeLoop enc len rest (si + 1) [] (dst ++ quantumOut (dbuf ++ [out]))
      else decodeLoop enc len rest (si + 1) (dbuf ++ [out]) dst
    else if c = 10 ∨ c = 13 then decodeLoop enc len rest (si + 1) dbuf dst
    else if some c ≠ enc.padChar then ⟨dst, some (.CorruptInputError si)⟩
    else ⟨dst ++ (decodePadding enc len rest (si + 1) dbuf).out,
      (decodePadding enc len rest (si + 1) dbuf).err⟩

/-! ## io.ReadFull and the random source -/

/-- What `io.ReadFull(r, buf)` leaves behind: the buffer, the reader and the error. -/
structure ReadResult where
  buf : List Byte
  rest : List Byte
  err : Option GoError
deriving DecidableEq, Repr

/-- Go `io.ReadFull(r, buf)` on a reader that delivers the bytes `r` and then fails:
with enough bytes the buffer is filled with the next `len(buf)` of them; otherwise the
bytes that did arrive overwrite the front of the buffer, the rest of the buffer keeps
its old content, and the error is `io.EOF` (nothing read) or `io.ErrUnexpectedEOF`. -/
def ReadFull (r : List Byte) (buf : List Byte) : ReadResult :=
  if buf.length ≤ r.length then ⟨r.take buf.length, r.drop buf.length, none⟩
  else ⟨r ++ buf.drop r.length, [], some (if r.isEmpty then .EOF else .ErrUnexpectedEOF)⟩

/-! ## crypto/elliptic -/

/-- Go `elliptic.CurveParams` of a short Weierstrass curve `y² = x³ - 3x + B` over the
prime field of order `P`, with base point `(Gx, Gy)` of order `N`. -/
structure CurveParams where
  P : Nat
  N : Nat
  B : Nat
  Gx : Nat
  Gy : Nat
  BitSize : Nat
  N_pos : 0 < N

/-- Go `elliptic.P256().Params()`. -/
def P256 : CurveParams where
  P := 0xffffffff00000001000000000000000000000000ffffffffffffffffffffffff
  N := 0xffffffff00000000ffffffffffffffffbce6faada7179e84f3b9cac2fc632551
  B := 0x5ac635d8aa3a93e7b3ebbd55769886bc651d06b0cc53b0f63bce3c3e27d2604b
  Gx := 0x6b17d1f2e12c4247f8bce6e563a440f277037d812deb33a0f4a13945d898c296
  Gy := 0x4fe342e2fe1a7f9b8ee7eb4a7c0f9e162bce33576b315ececbb6406837bf51f5
  BitSize := 256
  N_pos := by decide

/-- Go `(*big.Int).BitLen`: the number of binary digits, `0` for `0`. -/
def bitLen (n : Nat) : Nat := Nat.size n

/-- Go `new(big.Int).SetBytes(b)`: the big-endian unsigned integer. -/
def SetBytes (b : List Byte) : Nat := b.foldl (fun acc x => acc * 256 + x.val) 0

/-- Square-and-multiply `acc * b ^ e mod m` over the lowest `fuel` bits of `e`. -/
def modPow (m : Nat) : Nat → Nat → Nat → Nat → Nat
  | 0, _, _, acc => acc
  | fuel + 1, b, e, acc =>
    modPow m fuel (b * b % m) (e / 2) (if e % 2 = 1 then acc * b % m else acc)

/-- The inverse modulo the prime `P` that `(*big.Int).ModInverse` returns, computed as
`a ^ (P - 2) mod P`. -/
def modInverse (curve : CurveParams) (a : Nat) : Nat :=
  modPow curve.P (bitLen curve.P) (a % curve.P) (curve.P - 2) 1

/-- A curve point: `none` is the point at infinity, `some (x, y)` an affine point. -/
abbrev Point := Option (Nat × Nat)

/-- The group law of the curve on affine coordinates (the function the Go code computes
in Jacobian coordinates with `addJacobian` and `doubleJacobian`). -/
def pointAdd (curve : CurveParams) : Point → Point → Point
  | none, q => q
  | some p, none => some p
  | some (x1, y1), some (x2, y2) =>
    let P := curve.P
    if x1 % P = x2 % P then
      if (y1 + y2) % P = 0 then none
      else
        let l := (3 * x1 * x1 + (P - 3)) * modInverse curve (2 * y1) % P
        let x3 := (l * l + 2 * (P - x1 % P)) % P
        some (x3, (l * (x1 % P + (P - x3)) + (P - y1 % P)) % P)
    else
      let l := (y2 % P + (P - y1 % P)) * modInverse curve (x2 % P + (P - x1 % P)) % P
      let x3 := (l * l + (P - x1 % P) + (P - x2 % P)) % P
      some (x3, (l * (x1 % P + (P - x3)) + (P - y1 % P)) % P)

/-- The bits of a byte, most significant first (the inner loop of `ScalarMult` tests
`byte&0x80` and shifts left eight times). -/
def byteBits (b : Byte) : List Bool :=
  (List.range 8).map (fun i => (b.val >>> (7 - i)) % 2 = 1)

/-- Go `curve.ScalarMult(Bx, By, k)`: double-and-add over the bits of the big-endian
scalar `k`, most significant bit first. -/
def ScalarMult (curve : CurveParams) (base : Point) (k : List Byte) : Point :=
  (k.flatMap byteBits).foldl
    (fun acc bit =>
      let d := pointAdd curve acc acc
      if bit then pointAdd curve base d else d)
    none

/-- Go `curve.ScalarBaseMult(k)`: the affine coordinates of `k * G`, with `(0, 0)` for
the point at infinity. -/
def ScalarBaseMult (curve : CurveParams) (k : List Byte) : Nat × Nat :=
  (ScalarMult curve (some (curve.Gx % curve.P, curve.Gy % curve.P)) k).getD (0, 0)

/-- Go `var mask = []byte{0xff, 0x1, 0x3, 0x7, 0xf, 0x1f, 0x3f, 0x7f}` of
`crypto/elliptic`. -/
def mask : List Nat := [0xff, 0x1, 0x3, 0x7, 0xf, 0x1f, 0x3f, 0x7f]

/-- What `elliptic.GenerateKey` returns, `(priv, x, y)` or the error, and the random
source after the call. -/
structure KeyGen where
  key : Except GoError (List Byte × Nat × Nat)
  rand : List Byte

/-- The two adjustments `elliptic.GenerateKey` makes to the bytes it has read:
`priv[0] &= mask[bitSize%8]` with `bitSize = N.BitLen()`, and `priv[1] ^= 0x42`. -/
def tweakScalar (curve : CurveParams) (priv : List Byte) : List Byte :=
  let priv0 := priv.set 0 (byte ((priv.getD 0 0).val &&& mask.getD (bitLen curve.N % 8) 0))
  priv0.set 1 (byte ((priv0.getD 1 0).val ^^^ 0x42))

/-- The loop `for x == nil` of `elliptic.GenerateKey`: fill `priv` from the random
source, adjust it, and sample again while the scalar is not below `N`; a failed read
ends the loop with the error. The buffer `priv` has `byteLen > 0` bytes. -/
def generateKeyLoop (curve : CurveParams) (rand priv : List Byte) (hp : 0 < priv.length) :
    KeyGen :=
  let r := ReadFull rand priv
  if h : priv.length ≤ rand.length then
    let priv1 := tweakScalar curve r.buf
    if curve.N ≤ SetBytes priv1 then
      generateKeyLoop curve r.rest priv1
        (by simp only [priv1, r, ReadFull, if_pos h, tweakScalar, List.length_set,
              List.length_take]
            omega)
    else ⟨.ok (priv1, ScalarBaseMult curve priv1), r.rest⟩
  else ⟨.error (r.err.getD .EOF), r.rest⟩
termination_by rand.length
decreasing_by
  simp only [ReadFull, if_pos h, List.length_drop]
  omega

/-- Go `elliptic.GenerateKey(curve, rand)`. -/
def GenerateKey (curve : CurveParams) (rand : List Byte) : KeyGen :=
  generateKeyLoop curve rand (List.replicate ((bitLen curve.N + 7) / 8) 0)
    (by
      have hN := curve.N_pos
      have hs : 0 < Nat.size curve.N := Nat.size_pos.mpr hN
      simp only [List.length_replicate, bitLen]
      omega)

/-- The `byteLen` big-endian bytes of `x`, left-padded with zeros (`x.Bytes()` copied to
the end of a zeroed field of `byteLen` bytes). -/
def fixedBytes (byteLen x : Nat) : List Byte :=
  (List.range byteLen).map (fun i => byte (x >>> (8 * (byteLen - 1 - i))))

/-- Go `elliptic.Marshal(curve, x, y)`: the uncompressed point `0x04 || X || Y`. -/
def Marshal (curve : CurveParams) (x y : Nat) : List Byte :=
  let byteLen := (curve.BitSize + 7) >>> 3
  4 :: (fixedBytes byteLen x ++ fixedBytes byteLen y)

/-! ## gowebpusher.go -/

/-- Go `type PushSubscriptionKey struct`. -/
structure PushSubscriptionKey where
  P256dh : List Byte
  Auth : List Byte
deriving DecidableEq, Repr

/-- Go `type PushSubscription struct`. -/
structure PushSubscription where
  Endpoint : List Byte
  SubscriptionID : List Byte
  key : PushSubscriptionKey
deriving DecidableEq, Repr

/-- Go `type Sender struct`. -/
structure Sender where
  PushSubscriptions : List PushSubscription
deriving DecidableEq, Repr

/-- The two package-level encodings that `sendNotification` decodes with. -/
inductive Variant where
  | Std
  | URL
deriving DecidableEq, Repr

/-- One line of `fmt.Println(P256dh, authKey, salt)`: the three operands. -/
structure Printed where
  P256dh : List Byte
  authKey : List Byte
  salt : List Byte
deriving DecidableEq, Repr

/-- The state outside the `Sender` that `sendNotification` acts on: the random source
`rand.Reader`, standard output, and the record of the `DecodeString` calls made (which
encoding, on which text). -/
structure World where
  rand : List Byte
  stdout : List Printed
  decodeCalls : List (Variant × List Byte)
deriving DecidableEq, Repr

/-- What one of the two decode steps of `sendNotification` leaves behind: the slice
assigned to `P256dh` (or `authKey`), the variable `err`, and the `DecodeString` calls
made. -/
structure KeyDecode where
  bytes : List Byte
  err : Option GoError
  calls : List (Variant × List Byte)
deriving DecidableEq, Repr

/-- Step 1 and Step 2 of `sendNotification`, which are the same code on `sub.key.P256dh`
and on `sub.key.Auth`:
`b, err := base64.StdEncoding.DecodeString(text)` and, if `err != nil`,
`b, _ = base64.URLEncoding.DecodeString(text)`. The error of the second call is
discarded; `err` keeps the error of the first call. -/
def decodeKeyText (text : List Byte) : KeyDecode :=
  let r := StdEncoding.DecodeString text
  if r.err ≠ none then
    ⟨(URLEncoding.DecodeString text).bytes, r.err, [(.Std, text), (.URL, text)]⟩
  else ⟨r.bytes, r.err, [(.Std, text)]⟩

/-- Go `func (s *Sender) sendNotification(message []byte, sub *PushSubscription)`:
decode `P256dh`, decode `Auth`, read a 16-byte salt from `rand.Reader` into a zeroed
buffer (the error of `io.ReadFull` is assigned to `err` and not looked at), print the
three slices. The receiver is not modified. -/
def sendNotification (_message : List Byte) (sub : PushSubscription) (w : World) : World :=
  let p := decodeKeyText sub.key.P256dh
  let a := decodeKeyText sub.key.Auth
  let salt := ReadFull w.rand (List.replicate 16 0)
  { rand := salt.rest
    stdout := w.stdout ++ [⟨p.bytes, a.bytes, salt.buf⟩]
    decodeCalls := w.decodeCalls ++ p.calls ++ a.calls }

/-- Go `func (s *Sender) Initialize()`: `s.PushSubscriptions = make([]PushSubscription, 0, 1000)`. -/
def Sender.Initialize (_s : Sender) : Sender := { PushSubscriptions := [] }

/-- Go `func NewSender() *Sender`: `&Sender{}` (a nil slice), then `Initialize`. -/
def NewSender : Sender := Sender.Initialize { PushSubscriptions := [] }

/-- What `Send` leaves behind: the sender, the outside state and the returned `int`. -/
structure SendResult where
  sender : Sender
  world : World
  ret : Nat
deriving DecidableEq, Repr

/-- Go `func (s *Sender) Send() int`: `sendNotification([]byte("Test Notification"), &sub)`
for each `sub` of `s.PushSubscriptions` in order, then `len(s.PushSubscriptions)`. -/
def Sender.Send (s : Sender) (w : World) : SendResult :=
  { sender := s
    world := s.PushSubscriptions.foldl
      (fun w sub => sendNotification (stringBytes "Test Notification") sub w) w
    ret := s.PushSubscriptions.length }

/-- The three results of `GenerateVAPID` and the random source after the call. -/
structure VAPID where
  vapidPrivateKey : List Byte
  vapidPublicKey : List Byte
  err : Option GoError
  rand : List Byte
deriving DecidableEq, Repr

/-- Go `func GenerateVAPID() (vapidPrivateKey string, vapidPublicKey string, err error)`. -/
def GenerateVAPID (rand : List Byte) : VAPID :=
  let curve := P256
  let k := GenerateKey curve rand
  match k.key with
  | .error err => ⟨[], [], some err, k.rand⟩
  | .ok (privateKey, x, y) =>
    let publicKey := Marshal curve x y
    let privKey := RawURLEncoding.EncodeToString privateKey
    let pubKey := RawURLEncoding.EncodeToString publicKey
    ⟨privKey, pubKey, none, k.rand⟩

/-- The decode step with the two attempts in the other order, URL-safe first and
standard second. This function is not in the source; it is the comparison point for
the order of the attempts. -/
def decodeKeyTextURLFirst (text : List Byte) : KeyDecode :=
  let r := URLEncoding.DecodeString text
  if r.err ≠ none then
    ⟨(StdEncoding.DecodeString text).bytes, r.err, [(.URL, text), (.Std, text)]⟩
  else ⟨r.bytes, r.err, [(.URL, text)]⟩

/-! ## Predicates used in the proofs -/

/-- The conditions on an encoding under which decoding inverts encoding: the decode map
inverts the alphabet and the encoding is not strict. -/
structure Encoding.Sound (enc : Encoding) : Prop where
  dec_enc : ∀ i, i < 64 → enc.decodeMap (enc.encodeAt i) = i
  not_strict : enc.strict = false

/-- The conditions on the padding character of a padded encoding: it is outside the
alphabet and is not a newline. -/
structure Encoding.Padded (enc : Encoding) (p : Byte) : Prop where
  pad : enc.padChar = some p
  not_alphabet : enc.decodeMap p = 0xFF
  not_lf : p ≠ 10
  not_cr : p ≠ 13

/-- Both coordinates of the point, if it is affine, are reduced modulo `P`. -/
def InField (curve : CurveParams) (pt : Point) : Prop :=
  ∀ x y, pt = some (x, y) → x < curve.P ∧ y < curve.P

/-! ## Bit arithmetic of a quantum -/

theorem shl_or (x y k : Nat) (h : y < 2 ^ k) : x <<< k ||| y = x * 2 ^ k + y := by
  rw [Nat.shiftLeft_eq, Nat.mul_comm]
  exact (Nat.mul_add_lt_is_or h x).symm

theorem and_3F (x : Nat) : x &&& 0x3F = x % 64 := Nat.and_pow_two_sub_one_eq_mod x 6

theorem val3_eq (a b c : Nat) (hb : b < 256) (hc : c < 256) :
    a <<< 16 ||| b <<< 8 ||| c = a * 65536 + b * 256 + c := by
  have h1 : b <<< 8 = b * 256 := by rw [Nat.shiftLeft_eq]
  have h2 : a <<< 16 ||| b * 256 = a * 2 ^ 16 + b * 256 := shl_or a (b * 256) 16 (by omega)
  have h4 : (a * 256 + b) <<< 8 ||| c = (a * 256 + b) * 2 ^ 8 + c := shl_or _ c 8 (by omega)
  have h5 : (a * 256 + b) <<< 8 = a * 2 ^ 16 + b * 256 := by rw [Nat.shiftLeft_eq]; omega
  rw [h1, h2, ← h5, h4]
  omega

theorem val4_eq (s0 s1 s2 s3 : Nat) (h1 : s1 < 64) (h2 : s2 < 64) (h3 : s3 < 64) :
    s0 <<< 18 ||| s1 <<< 12 ||| s2 <<< 6 ||| s3 = s0 * 262144 + s1 * 4096 + s2 * 64 + s3 := by
  have e1 : s1 <<< 12 = s1 * 4096 := by rw [Nat.shiftLeft_eq]
  have e2 : s2 <<< 6 = s2 * 64 := by rw [Nat.shiftLeft_eq]
  have a1 : s0 <<< 18 ||| s1 * 4096 = s0 * 2 ^ 18 + s1 * 4096 := shl_or _ _ 18 (by omega)
  have a2 : (s0 * 64 + s1) <<< 12 ||| s2 * 64 = (s0 * 64 + s1) * 2 ^ 12 + s2 * 64 :=
    shl_or _ _ 12 (by omega)
  have a3 : (s0 * 4096 + s1 * 64 + s2) <<< 6 ||| s3 = (s0 * 4096 + s1 * 64 + s2) * 2 ^ 6 + s3 :=
    shl_or _ _ 6 (by omega)
  have b2 : (s0 * 64 + s1) <<< 12 = s0 * 2 ^ 18 + s1 * 4096 := by rw [Nat.shiftLeft_eq]; omega
  have b3 : (s0 * 4096 + s1 * 64 + s2) <<< 6 = (s0 * 64 + s1) * 2 ^ 12 + s2 * 64 := by
    rw [Nat.shiftLeft_eq]; omega
  rw [e1, e2, a1, ← b2, a2, ← b3, a3]
  omega

theorem alphabet_std : ∀ i : Fin 64, StdEncoding.decodeMap (StdEncoding.encodeAt i) = i := by decide
theorem alphabet_url : ∀ i : Fin 64, URLEncoding.decodeMap (URLEncoding.encodeAt i) = i := by decide
theorem maps_agree : ∀ c : Byte, StdEncoding.decodeMap c ≠ 0xFF → URLEncoding.decodeMap c ≠ 0xFF →
  StdEncoding.decodeMap c = URLEncoding.decodeMap c := by decide

/-! ## `Decode` as a single pass -/

theorem skipNewlines_length (src : List Byte) : ∀ si, (skipNewlines src si).1.length ≤ src.length := by
  induction src with
  | nil => intro si; simp [skipNewlines]
  | cons c rest ih =>
    intro si
    by_cases h : c = 10 ∨ c = 13
    · simp only [skipNewlines, h, if_true, List.length_cons]
      exact Nat.le_succ_of_le (ih _)
    · simp [skipNewlines, h]

theorem finishQuantum_rest (enc : Encoding) (dbuf : List Nat) (dlen si : Nat) (rest : List Byte)
    (err : Option GoError) : (finishQuantum enc dbuf dlen si rest err).rest = rest := by
  unfold finishQuantum
  simp only []
  split_ifs <;> rfl

theorem finishQuantum_ok (enc : Encoding) (dbuf : List Nat) (dlen si : Nat) (rest : List Byte)
    (err : Option GoError) (h : (finishQuantum enc dbuf dlen si rest err).err = none) :
    err = none := by
  unfold finishQuantum at h
  simp only [] at h
  split_ifs at h <;> simp_all

theorem padTail_length (enc : Encoding) (src : List Byte) (si : Nat) (dbuf : List Nat) :
    (padTail enc src si dbuf).rest.length ≤ src.length := by
  unfold padTail
  simp only [finishQuantum_rest]
  exact skipNewlines_length src si

theorem padTail_ok (enc : Encoding) (src : List Byte) (si : Nat) (dbuf : List Nat)
    (h : (padTail enc src si dbuf).err = none) : (padTail enc src si dbuf).rest = [] := by
  unfold padTail at h ⊢
  simp only [finishQuantum_rest]
  have h2 := finishQuantum_ok _ _ _ _ _ _ h
  by_cases he : (skipNewlines src si).1.isEmpty
  · exact List.isEmpty_iff.mp he
  · simp [he] at h2

theorem decodePadding_length (enc : Encoding) (len : Nat) (src : List Byte) (si : Nat)
    (dbuf : List Nat) : (decodePadding enc len src si dbuf).rest.length ≤ src.length := by
  have hs := skipNewlines_length src si
  by_cases h1 : dbuf.length = 0 ∨ dbuf.length = 1
  · simp only [decodePadding, h1, if_true]
    exact Nat.le_refl _
  · by_cases h2 : dbuf.length = 2
    · have h12 : ¬ ((2 : Nat) = 0 ∨ (2 : Nat) = 1) := by decide
      simp only [decodePadding, h2, h12, if_false, if_true]
      cases hr : (skipNewlines src si).1 with
      | nil => simp
      | cons x src2 =>
        rw [hr] at hs
        simp only [List.length_cons] at hs
        simp only
        by_cases hx : some x = enc.padChar
        · simp only [hx, ne_eq, not_true_eq_false, if_false]
          have := padTail_length enc src2 ((skipNewlines src si).2 + 1) dbuf
          omega
        · simp only [ne_eq, hx, not_false_eq_true, if_true, List.length_cons]
          omega
    · simp only [decodePadding, h1, h2, if_false]
      exact padTail_length enc src si dbuf

theorem decodePadding_ok (enc : Encoding) (len : Nat) (src : List Byte) (si : Nat)
    (dbuf : List Nat) (h : (decodePadding enc len src si dbuf).err = none) :
    (decodePadding enc len src si dbuf).rest = [] := by
  by_cases h1 : dbuf.length = 0 ∨ dbuf.length = 1
  · simp only [decodePadding, h1, if_true] at h
    simp at h
  · by_cases h2 : dbuf.length = 2
    · have h12 : ¬ ((2 : Nat) = 0 ∨ (2 : Nat) = 1) := by decide
      simp only [decodePadding, h2, h12, if_false, if_true] at h ⊢
      cases hr : (skipNewlines src si).1 with
      | nil => simp
      | cons x src2 =>
        rw [hr] at h
        simp only at h ⊢
        by_cases hx : some x = enc.padChar
        · simp only [hx, ne_eq, not_true_eq_false, if_false] at h ⊢
          exact padTail_ok _ _ _ _ h
        · simp [hx] at h
    · simp only [decodePadding, h1, h2, if_false] at h ⊢
      exact padTail_ok _ _ _ _ h

/-- A call of `decodeQuantum` never returns more unread input than it was given, and
less whenever there was input. -/
theorem decodeQuantum_length (enc : Encoding) (len : Nat) (src : List Byte) :
    ∀ (si : Nat) (dbuf : List Nat),
      (decodeQuantum enc len src si dbuf).rest.length ≤ src.length - (if src.isEmpty then 0 else 1) := by
  induction src with
  | nil =>
    intro si dbuf
    simp only [decodeQuantum]
    split_ifs <;> simp [finishQuantum_rest]
  | cons c rest ih =>
    intro si dbuf
    have hq := ih (si + 1) (dbuf ++ [enc.decodeMap c])
    have hn := ih (si + 1) dbuf
    have hp := decodePadding_length enc len rest (si + 1) dbuf
    simp only [decodeQuantum, List.isEmpty_cons, Bool.false_eq_true, if_false, List.length_cons,
      Nat.add_sub_cancel]
    split_ifs
    · simp [finishQuantum_rest]
    · omega
    · omega
    · simp
    · exact hp

/-- The single pass splits at the end of the quantum in progress: what `decodeQuantum`
returns from the current state, then the pass on the rest. -/
theorem decodeLoop_quantum (enc : Encoding) (len : Nat) (src : List Byte) :
    ∀ (si : Nat) (dbuf : List Nat) (dst : List Byte),
      decodeLoop enc len src si dbuf dst
        = if (decodeQuantum enc len src si dbuf).err ≠ none then
            ⟨dst ++ (decodeQuantum enc len src si dbuf).out, (decodeQuantum enc len src si dbuf).err⟩
          else decodeLoop enc len (decodeQuantum enc len src si dbuf).rest
            (decodeQuantum enc len src si dbuf).nsi [] (dst ++ (decodeQuantum enc len src si dbuf).out) := by
  induction src with
  | nil =>
    intro si dbuf dst
    by_cases h0 : dbuf.length = 0
    · simp [decodeLoop, decodeQuantum, h0]
    · by_cases h1 : dbuf.length = 1 ∨ enc.padChar ≠ none
      · simp [decodeLoop, decodeQuantum, h0, h1]
      · simp only [decodeLoop, decodeQuantum, h0, h1, if_false]
        by_cases he : (finishQuantum enc dbuf dbuf.length si [] none).err = none
        · simp [he, finishQuantum_rest, decodeLoop]
        · simp [he]
  | cons c rest ih =>
    intro si dbuf dst
    by_cases hm : enc.decodeMap c = 0xFF
    · by_cases hn : c = 10 ∨ c = 13
      · simp only [decodeLoop, decodeQuantum, hm, hn, ne_eq, not_true_eq_false, if_false, if_true]
        exact ih _ _ _
      · by_cases hp : some c = enc.padChar
        · simp only [decodeLoop, decodeQuantum, hm, hn, hp, ne_eq, not_true_eq_false, if_false]
          by_cases he : (decodePadding enc len rest (si + 1) dbuf).err = none
          · simp [he, decodePadding_ok _ _ _ _ _ he, decodeLoop]
          · simp [he]
        · simp [decodeLoop, decodeQuantum, hm, hn, hp]
    · by_cases h3 : dbuf.length = 3
      · simp only [decodeLoop, decodeQuantum, hm, h3, ne_eq, not_false_eq_true, if_true]
        have hq : finishQuantum enc (dbuf ++ [enc.decodeMap c]) 4 (si + 1) rest none
            = ⟨si + 1, rest, quantumOut (dbuf ++ [enc.decodeMap c]), none⟩ := by
          simp [finishQuantum, quantumOut]
        rw [hq]
        simp
      · simp only [decodeLoop, decodeQuantum, hm, h3, ne_eq, not_false_eq_true, if_true, if_false]
        exact ih _ _ _

/-- With more passes allowed than there is input, `Decode` computes the single pass: the
bound on the passes is never reached. -/
theorem Decode_eq_decodeLoop (enc : Encoding) (len : Nat) (fuel : Nat) :
    ∀ (src : List Byte) (si : Nat) (dst : List Byte), src.length < fuel →
      Decode enc len fuel src si dst = decodeLoop enc len src si [] dst := by
  induction fuel with
  | zero => intro src si dst h; omega
  | succ fuel ih =>
    intro src si dst h
    cases src with
    | nil => simp [Decode, decodeLoop]
    | cons c rest =>
      rw [decodeLoop_quantum]
      simp only [Decode, List.isEmpty_cons, Bool.false_eq_true, if_false]
      by_cases he : (decodeQuantum enc len (c :: rest) si []).err = none
      · simp only [he, ne_eq, not_true_eq_false, if_false]
        apply ih
        have := decodeQuantum_length enc len (c :: rest) si []
        simp only [List.isEmpty_cons, Bool.false_eq_true, if_false, List.length_cons] at this h
        omega
      · simp only [ne_eq, he, not_false_eq_true, if_true]

theorem DecodeString_eq (enc : Encoding) (s : List Byte) :
    enc.DecodeString s = decodeLoop enc s.length s 0 [] [] :=
  Decode_eq_decodeLoop enc s.length (s.length + 1) s 0 [] (Nat.lt_succ_self _)

/-! ## Decoding what `Encode` produced -/

theorem sound_std : StdEncoding.Sound :=
  ⟨fun i hi => alphabet_std ⟨i, hi⟩, rfl⟩

theorem sound_url : URLEncoding.Sound :=
  ⟨fun i hi => alphabet_url ⟨i, hi⟩, rfl⟩

theorem decodeLoop_nil (enc : Encoding) (len si : Nat) (dst : List Byte) :
    decodeLoop enc len [] si [] dst = ⟨dst, none⟩ := by
  simp [decodeLoop]

theorem decodeLoop_sextet (enc : Encoding) (len : Nat) (c : Byte) (rest : List Byte) (si : Nat)
    (dbuf : List Nat) (dst : List Byte) (h : enc.decodeMap c ≠ 0xFF) (hl : dbuf.length ≠ 3) :
    decodeLoop enc len (c :: rest) si dbuf dst
      = decodeLoop enc len rest (si + 1) (dbuf ++ [enc.decodeMap c]) dst := by
  simp [decodeLoop, h, hl]

theorem decodeLoop_sextet_last (enc : Encoding) (len : Nat) (c : Byte) (rest : List Byte)
    (si : Nat) (dbuf : List Nat) (dst : List Byte) (h : enc.decodeMap c ≠ 0xFF)
    (hl : dbuf.length = 3) :
    decodeLoop enc len (c :: rest) si dbuf dst
      = decodeLoop enc len rest (si + 1) [] (dst ++ quantumOut (dbuf ++ [enc.decodeMap c])) := by
  simp [decodeLoop, h, hl]

theorem sextet_lt (x : Nat) : x &&& 0x3F < 64 := by
  rw [and_3F]; omega

theorem quantumOut_encode (a b c : Byte) :
    quantumOut
      [(a.val <<< 16 ||| b.val <<< 8 ||| c.val) >>> 18 &&& 0x3F,
       (a.val <<< 16 ||| b.val <<< 8 ||| c.val) >>> 12 &&& 0x3F,
       (a.val <<< 16 ||| b.val <<< 8 ||| c.val) >>> 6 &&& 0x3F,
       (a.val <<< 16 ||| b.val <<< 8 ||| c.val) &&& 0x3F] = [a, b, c] := by
  have ha := a.isLt
  have hb := b.isLt
  have hc := c.isLt
  unfold quantumOut
  simp only [List.getD_cons_zero, List.getD_cons_succ]
  rw [val4_eq _ _ _ _ (sextet_lt _) (sextet_lt _) (sextet_lt _)]
  rw [val3_eq a.val b.val c.val hb hc]
  simp only [and_3F, Nat.shiftRight_eq_div_pow, byte]
  simp only [List.cons.injEq, and_true]
  refine ⟨?_, ?_, ?_⟩ <;> apply Fin.ext <;> simp only [] <;> omega

/-- Decoding one full group: the four characters that `Encode` emits for three bytes are
consumed and give the three bytes back. -/
theorem decodeLoop_group (enc : Encoding) (hs : enc.Sound) (len : Nat) (a b c : Byte)
    (rest : List Byte) (si : Nat) (dst : List Byte) :
    decodeLoop enc len
      (enc.encodeAt ((a.val <<< 16 ||| b.val <<< 8 ||| c.val) >>> 18 &&& 0x3F) ::
       enc.encodeAt ((a.val <<< 16 ||| b.val <<< 8 ||| c.val) >>> 12 &&& 0x3F) ::
       enc.encodeAt ((a.val <<< 16 ||| b.val <<< 8 ||| c.val) >>> 6 &&& 0x3F) ::
       enc.encodeAt ((a.val <<< 16 ||| b.val <<< 8 ||| c.val) &&& 0x3F) :: rest) si [] dst
      = decodeLoop enc len rest (si + 4) [] (dst ++ [a, b, c]) := by
  have d := fun x => hs.dec_enc (x &&& 0x3F) (sextet_lt x)
  have n : ∀ x, enc.decodeMap (enc.encodeAt (x &&& 0x3F)) ≠ 0xFF := by
    intro x
    rw [d x]
    have := sextet_lt x
    omega
  rw [decodeLoop_sextet _ _ _ _ _ _ _ (n _) (by simp),
    decodeLoop_sextet _ _ _ _ _ _ _ (n _) (by simp),
    decodeLoop_sextet _ _ _ _ _ _ _ (n _) (by simp),
    decodeLoop_sextet_last _ _ _ _ _ _ _ (n _) (by simp)]
  simp only [d, List.nil_append, List.cons_append, quantumOut_encode]

theorem val2_eq (a b : Nat) (hb : b < 256) : a <<< 16 ||| b <<< 8 = a * 65536 + b * 256 := by
  have h := val3_eq a b 0 hb (by decide)
  rw [Nat.or_zero] at h
  omega

theorem quantumOut_encode2 (a b : Byte) :
    (quantumOut
      [(a.val <<< 16 ||| b.val <<< 8) >>> 18 &&& 0x3F,
       (a.val <<< 16 ||| b.val <<< 8) >>> 12 &&& 0x3F,
       (a.val <<< 16 ||| b.val <<< 8) >>> 6 &&& 0x3F]).take 2 = [a, b] := by
  have ha := a.isLt
  have hb := b.isLt
  unfold quantumOut
  simp only [List.getD_cons_zero, List.getD_cons_succ, List.getD_nil]
  rw [val4_eq _ _ _ 0 (sextet_lt _) (sextet_lt _) (by decide)]
  rw [val2_eq a.val b.val hb]
  simp only [and_3F, Nat.shiftRight_eq_div_pow, byte]
  simp only [List.take_succ_cons, List.take_zero, List.cons.injEq, and_true]
  refine ⟨?_, ?_⟩ <;> apply Fin.ext <;> simp only [] <;> omega

theorem quantumOut_encode1 (a : Byte) :
    (quantumOut
      [(a.val <<< 16) >>> 18 &&& 0x3F, (a.val <<< 16) >>> 12 &&& 0x3F]).take 1 = [a] := by
  have ha := a.isLt
  have h16 : a.val <<< 16 = a.val * 65536 := by rw [Nat.shiftLeft_eq]
  unfold quantumOut
  simp only [List.getD_cons_zero, List.getD_cons_succ, List.getD_nil]
  have h := val4_eq ((a.val <<< 16) >>> 18 &&& 0x3F) ((a.val <<< 16) >>> 12 &&& 0x3F) 0 0
    (sextet_lt _) (by decide) (by decide)
  rw [h, h16]
  simp only [and_3F, Nat.shiftRight_eq_div_pow, byte]
  simp only [List.take_succ_cons, List.take_zero, List.cons.injEq, and_true]
  apply Fin.ext
  simp only []
  omega

theorem padded_std : StdEncoding.Padded StdPadding := ⟨rfl, by decide, by decide, by decide⟩

theorem padded_url : URLEncoding.Padded StdPadding := ⟨rfl, by decide, by decide, by decide⟩

theorem decodeLoop_pad (enc : Encoding) (p : Byte) (hp : enc.Padded p) (len : Nat)
    (rest : List Byte) (si : Nat) (dbuf : List Nat) (dst : List Byte) :
    decodeLoop enc len (p :: rest) si dbuf dst
      = ⟨dst ++ (decodePadding enc len rest (si + 1) dbuf).out,
          (decodePadding enc len rest (si + 1) dbuf).err⟩ := by
  simp [decodeLoop, hp.not_alphabet, hp.not_lf, hp.not_cr, hp.pad]

/-- Decoding inverts encoding, for a padded encoding: from any quantum boundary, the
text `Encode b` is consumed without error and appends exactly `b`. -/
theorem decodeLoop_encode (enc : Encoding) (hs : enc.Sound) (p : Byte) (hp : enc.Padded p)
    (len : Nat) (b : List Byte) :
    ∀ (si : Nat) (dst : List Byte),
      decodeLoop enc len (enc.Encode b) si [] dst = ⟨dst ++ b, none⟩ := by
  have d := fun x => hs.dec_enc (x &&& 0x3F) (sextet_lt x)
  have n : ∀ x, enc.decodeMap (enc.encodeAt (x &&& 0x3F)) ≠ 0xFF := by
    intro x
    rw [d x]
    have := sextet_lt x
    omega
  induction b using Encoding.Encode.induct enc with
  | case1 a b c rest ih =>
    intro si dst
    simp only [Encoding.Encode]
    rw [decodeLoop_group enc hs, ih]
    simp
  | case2 a b =>
    intro si dst
    simp only [Encoding.Encode, hp.pad, List.cons_append, List.nil_append]
    rw [decodeLoop_sextet _ _ _ _ _ _ _ (n _) (by simp),
      decodeLoop_sextet _ _ _ _ _ _ _ (n _) (by simp),
      decodeLoop_sextet _ _ _ _ _ _ _ (n _) (by simp),
      decodeLoop_pad enc p hp]
    simp only [d, List.nil_append, List.cons_append]
    simp [decodePadding, padTail, skipNewlines, finishQuantum, hs.not_strict,
      quantumOut_encode2]
  | case3 a =>
    intro si dst
    simp only [Encoding.Encode, hp.pad, List.cons_append, List.nil_append]
    rw [decodeLoop_sextet _ _ _ _ _ _ _ (n _) (by simp),
      decodeLoop_sextet _ _ _ _ _ _ _ (n _) (by simp),
      decodeLoop_pad enc p hp]
    simp only [d, List.nil_append, List.cons_append]
    simp [decodePadding, padTail, skipNewlines, finishQuantum, hs.not_strict, hp.pad,
      hp.not_lf, hp.not_cr, quantumOut_encode1]
  | case4 =>
    intro si dst
    simp [Encoding.Encode, decodeLoop]

theorem DecodeString_EncodeToString (enc : Encoding) (hs : enc.Sound) (p : Byte)
    (hp : enc.Padded p) (b : List Byte) :
    enc.DecodeString (enc.EncodeToString b) = ⟨b, none⟩ := by
  rw [DecodeString_eq]
  unfold Encoding.EncodeToString
  rw [decodeLoop_encode enc hs p hp]
  simp

/-! ## The two padded decoders on the same text -/

theorem std_sextet_plain : ∀ c : Byte, StdEncoding.decodeMap c ≠ 0xFF →
    c ≠ 10 ∧ c ≠ 13 ∧ c ≠ StdPadding := by decide

theorem url_sextet_plain : ∀ c : Byte, URLEncoding.decodeMap c ≠ 0xFF →
    c ≠ 10 ∧ c ≠ 13 ∧ c ≠ StdPadding := by decide

theorem decodePadding_std_url (len : Nat) (src : List Byte) (si : Nat) (dbuf : List Nat) :
    decodePadding StdEncoding len src si dbuf = decodePadding URLEncoding len src si dbuf := by
  simp [decodePadding, padTail, finishQuantum, StdEncoding, URLEncoding]

theorem decodeLoop_newline (enc : Encoding) (len : Nat) (c : Byte) (rest : List Byte) (si : Nat)
    (dbuf : List Nat) (dst : List Byte) (h : enc.decodeMap c = 0xFF) (hn : c = 10 ∨ c = 13) :
    decodeLoop enc len (c :: rest) si dbuf dst = decodeLoop enc len rest (si + 1) dbuf dst := by
  simp [decodeLoop, h, hn]

theorem decodeLoop_illegal (enc : Encoding) (len : Nat) (c : Byte) (rest : List Byte) (si : Nat)
    (dbuf : List Nat) (dst : List Byte) (h : enc.decodeMap c = 0xFF) (hn : ¬ (c = 10 ∨ c = 13))
    (hp : some c ≠ enc.padChar) :
    decodeLoop enc len (c :: rest) si dbuf dst = ⟨dst, some (.CorruptInputError si)⟩ := by
  simp [decodeLoop, h, hn, hp]

/-- On a text that both padded decoders accept, they run in lockstep and return the
same result. -/
theorem decodeLoop_std_url (len : Nat) (src : List Byte) :
    ∀ (si : Nat) (dbuf : List Nat) (dst : List Byte),
      (decodeLoop StdEncoding len src si dbuf dst).err = none →
      (decodeLoop URLEncoding len src si dbuf dst).err = none →
      decodeLoop StdEncoding len src si dbuf dst = decodeLoop URLEncoding len src si dbuf dst := by
  induction src with
  | nil =>
    intro si dbuf dst _ _
    simp [decodeLoop, finishQuantum, StdEncoding, URLEncoding]
  | cons c rest ih =>
    intro si dbuf dst h1 h2
    by_cases hs : StdEncoding.decodeMap c = 0xFF
    · by_cases hu : URLEncoding.decodeMap c = 0xFF
      · by_cases hn : c = 10 ∨ c = 13
        · rw [decodeLoop_newline _ _ _ _ _ _ _ hs hn] at h1 ⊢
          rw [decodeLoop_newline _ _ _ _ _ _ _ hu hn] at h2 ⊢
          exact ih _ _ _ h1 h2
        · by_cases hp : c = StdPadding
          · subst hp
            rw [decodeLoop_pad _ _ padded_std, decodeLoop_pad _ _ padded_url,
              decodePadding_std_url]
          · have hp2 : some c ≠ StdEncoding.padChar := by
              simp [StdEncoding, hp]
            rw [decodeLoop_illegal _ _ _ _ _ _ _ hs hn hp2] at h1
            simp at h1
      · have hu3 := url_sextet_plain c hu
        have hp2 : some c ≠ StdEncoding.padChar := by
          simp [StdEncoding, hu3.2.2]
        rw [decodeLoop_illegal _ _ _ _ _ _ _ hs (by simp [hu3.1, hu3.2.1]) hp2] at h1
        simp at h1
    · have hs3 := std_sextet_plain c hs
      by_cases hu : URLEncoding.decodeMap c = 0xFF
      · have hp2 : some c ≠ URLEncoding.padChar := by
          simp [URLEncoding, hs3.2.2]
        rw [decodeLoop_illegal _ _ _ _ _ _ _ hu (by simp [hs3.1, hs3.2.1]) hp2] at h2
        simp at h2
      · have e := maps_agree c hs hu
        by_cases hl : dbuf.length = 3
        · rw [decodeLoop_sextet_last _ _ _ _ _ _ _ hs hl] at h1 ⊢
          rw [decodeLoop_sextet_last _ _ _ _ _ _ _ hu hl] at h2 ⊢
          rw [e] at h1 ⊢
          exact ih _ _ _ h1 h2
        · rw [decodeLoop_sextet _ _ _ _ _ _ _ hs hl] at h1 ⊢
          rw [decodeLoop_sextet _ _ _ _ _ _ _ hu hl] at h2 ⊢
          rw [e] at h1 ⊢
          exact ih _ _ _ h1 h2

theorem DecodeString_std_url (text : List Byte)
    (h1 : (StdEncoding.DecodeString text).err = none)
    (h2 : (URLEncoding.DecodeString text).err = none) :
    StdEncoding.DecodeString text = URLEncoding.DecodeString text := by
  rw [DecodeString_eq] at h1 h2
  rw [DecodeString_eq, DecodeString_eq]
  exact decodeLoop_std_url _ _ _ _ _ h1 h2

/-! ## Key generation -/

theorem tweakScalar_length (curve : CurveParams) (priv : List Byte) :
    (tweakScalar curve priv).length = priv.length := by
  simp [tweakScalar]

/-- One pass of the key generation loop that ends it: the read succeeds and the adjusted
scalar is below `N`. -/
theorem generateKeyLoop_accept (curve : CurveParams) (rand priv : List Byte)
    (hp : 0 < priv.length) (h : priv.length ≤ rand.length)
    (hlt : SetBytes (tweakScalar curve (rand.take priv.length)) < curve.N) :
    generateKeyLoop curve rand priv hp
      = ⟨.ok (tweakScalar curve (rand.take priv.length),
          ScalarBaseMult curve (tweakScalar curve (rand.take priv.length))),
        rand.drop priv.length⟩ := by
  rw [generateKeyLoop]
  simp [ReadFull, h, Nat.not_le.mpr hlt]

/-- A failed read ends the key generation loop with an error. -/
theorem generateKeyLoop_short (curve : CurveParams) (rand priv : List Byte)
    (hp : 0 < priv.length) (h : rand.length < priv.length) :
    ∃ e, (generateKeyLoop curve rand priv hp).key = .error e := by
  rw [generateKeyLoop]
  simp [Nat.not_le.mpr h]

/-- What a successful key generation returns: a scalar of the length of the buffer,
below `N`, and its multiple of the base point. -/
theorem generateKeyLoop_ok (curve : CurveParams) (rand priv : List Byte) (hp : 0 < priv.length) :
    ∀ k x y, (generateKeyLoop curve rand priv hp).key = .ok (k, x, y) →
      k.length = priv.length ∧ SetBytes k < curve.N ∧ (x, y) = ScalarBaseMult curve k := by
  induction rand, priv, hp using generateKeyLoop.induct curve with
  | case1 rand priv hp r h priv1 hge ih =>
    intro k x y hk
    rw [generateKeyLoop] at hk
    simp only [h, dite_true, hge, if_true, r, priv1] at hk ih
    have := ih k x y hk
    simp only [tweakScalar_length, ReadFull, if_pos h, List.length_take] at this
    refine ⟨?_, this.2⟩
    omega
  | case2 rand priv hp r h priv1 hlt =>
    intro k x y hk
    rw [generateKeyLoop] at hk
    simp only [h, dite_true, hlt, if_false, r, priv1, Except.ok.injEq, Prod.mk.injEq] at hk
    obtain ⟨rfl, hxy⟩ := hk
    refine ⟨?_, ?_, ?_⟩
    · simp only [tweakScalar_length, ReadFull, if_pos h, List.length_take]
      omega
    · exact Nat.not_le.mp hlt
    · exact hxy.symm
  | case3 rand priv hp h =>
    intro k x y hk
    rw [generateKeyLoop] at hk
    simp [h] at hk

theorem bitLen_P256_N : bitLen P256.N = 256 := by
  have h1 : Nat.size P256.N ≤ 256 := Nat.size_le.mpr (by decide)
  have h2 : 255 < Nat.size P256.N := Nat.lt_size.mpr (by decide)
  unfold bitLen
  omega

theorem bitLen_P256_P : bitLen P256.P = 256 := by
  have h1 : Nat.size P256.P ≤ 256 := Nat.size_le.mpr (by decide)
  have h2 : 255 < Nat.size P256.P := Nat.lt_size.mpr (by decide)
  unfold bitLen
  omega

theorem GenerateKey_P256_accept (rand : List Byte) (h : 32 ≤ rand.length)
    (hlt : SetBytes (tweakScalar P256 (rand.take 32)) < P256.N) :
    GenerateKey P256 rand
      = ⟨.ok (tweakScalar P256 (rand.take 32),
          ScalarBaseMult P256 (tweakScalar P256 (rand.take 32))), rand.drop 32⟩ := by
  unfold GenerateKey
  rw [generateKeyLoop_accept]
  · simp only [bitLen_P256_N, List.length_replicate]
  · simp only [bitLen_P256_N, List.length_replicate]
    exact h
  · simp only [bitLen_P256_N, List.length_replicate]
    exact hlt

theorem GenerateKey_P256_ok (rand : List Byte) (k : List Byte) (x y : Nat)
    (h : (GenerateKey P256 rand).key = .ok (k, x, y)) :
    k.length = 32 ∧ SetBytes k < P256.N ∧ (x, y) = ScalarBaseMult P256 k := by
  unfold GenerateKey at h
  have := generateKeyLoop_ok P256 _ _ _ k x y h
  simp only [bitLen_P256_N, List.length_replicate] at this
  exact this

/-! ## Coordinates of a multiple of the base point -/

theorem pointAdd_inField (curve : CurveParams) (hP : 0 < curve.P) (p q : Point)
    (hp : InField curve p) (hq : InField curve q) : InField curve (pointAdd curve p q) := by
  cases p with
  | none => simpa [pointAdd] using hq
  | some a =>
    cases q with
    | none => simpa [pointAdd] using hp
    | some b =>
      obtain ⟨x1, y1⟩ := a
      obtain ⟨x2, y2⟩ := b
      intro x y h
      simp only [pointAdd] at h
      split_ifs at h
      · simp only [Option.some.injEq, Prod.mk.injEq] at h
        rw [← h.1, ← h.2]
        exact ⟨Nat.mod_lt _ hP, Nat.mod_lt _ hP⟩
      · simp only [Option.some.injEq, Prod.mk.injEq] at h
        rw [← h.1, ← h.2]
        exact ⟨Nat.mod_lt _ hP, Nat.mod_lt _ hP⟩

theorem ScalarMult_inField (curve : CurveParams) (hP : 0 < curve.P) (base : Point)
    (hb : InField curve base) (k : List Byte) : InField curve (ScalarMult curve base k) := by
  unfold ScalarMult
  have key : ∀ (bits : List Bool) (acc : Point), InField curve acc →
      InField curve (bits.foldl
        (fun acc bit =>
          let d := pointAdd curve acc acc
          if bit then pointAdd curve base d else d) acc) := by
    intro bits
    induction bits with
    | nil => intro acc h; simpa using h
    | cons bit rest ih =>
      intro acc h
      simp only [List.foldl_cons]
      apply ih
      have hd := pointAdd_inField curve hP acc acc h h
      split_ifs
      · exact pointAdd_inField curve hP _ _ hb hd
      · exact hd
  apply key
  intro x y h
  simp at h

theorem ScalarBaseMult_lt (curve : CurveParams) (hP : 0 < curve.P) (k : List Byte) :
    (ScalarBaseMult curve k).1 < curve.P ∧ (ScalarBaseMult curve k).2 < curve.P := by
  unfold ScalarBaseMult
  have h := ScalarMult_inField curve hP (some (curve.Gx % curve.P, curve.Gy % curve.P))
    (by
      intro x y h
      simp only [Option.some.injEq, Prod.mk.injEq] at h
      rw [← h.1, ← h.2]
      exact ⟨Nat.mod_lt _ hP, Nat.mod_lt _ hP⟩) k
  cases hk : ScalarMult curve (some (curve.Gx % curve.P, curve.Gy % curve.P)) k with
  | none => simpa using hP
  | some xy =>
    obtain ⟨x, y⟩ := xy
    simpa using h x y hk

/-! ## Shape of the unpadded encoding -/

theorem Encode_raw_length (enc : Encoding) (hn : enc.padChar = none) (b : List Byte) :
    (enc.Encode b).length = (b.length * 8 + 5) / 6 := by
  induction b using Encoding.Encode.induct enc with
  | case1 a b c rest ih =>
    simp only [Encoding.Encode, List.length_cons, ih]
    omega
  | case2 a b => simp [Encoding.Encode, hn]
  | case3 a => simp [Encoding.Encode, hn]
  | case4 => simp [Encoding.Encode]

theorem encodeAt_mem (enc : Encoding) (hl : enc.encode.length = 64) (x : Nat) :
    enc.encodeAt (x &&& 0x3F) ∈ enc.encode := by
  unfold Encoding.encodeAt
  have h : x &&& 0x3F < enc.encode.length := by
    rw [hl]; exact sextet_lt x
  rw [List.getD_eq_getElem _ _ h]
  exact List.getElem_mem h

theorem Encode_raw_mem (enc : Encoding) (hn : enc.padChar = none) (hl : enc.encode.length = 64)
    (b : List Byte) : ∀ c ∈ enc.Encode b, c ∈ enc.encode := by
  induction b using Encoding.Encode.induct enc with
  | case1 a b c rest ih =>
    intro x hx
    simp only [Encoding.Encode, List.mem_cons] at hx
    rcases hx with h | h | h | h | h
    · rw [h]; exact encodeAt_mem enc hl _
    · rw [h]; exact encodeAt_mem enc hl _
    · rw [h]; exact encodeAt_mem enc hl _
    · rw [h]; exact encodeAt_mem enc hl _
    · exact ih x h
  | case2 a b =>
    intro x hx
    simp only [Encoding.Encode, hn, List.append_nil, List.mem_cons, List.mem_singleton,
      List.not_mem_nil, or_false] at hx
    rcases hx with h | h | h
    · rw [h]; exact encodeAt_mem enc hl _
    · rw [h]; exact encodeAt_mem enc hl _
    · rw [h]; exact encodeAt_mem enc hl _
  | case3 a =>
    intro x hx
    simp only [Encoding.Encode, hn, List.append_nil, List.mem_cons, List.mem_singleton,
      List.not_mem_nil, or_false] at hx
    rcases hx with h | h
    · rw [h]; exact encodeAt_mem enc hl _
    · rw [h]; exact encodeAt_mem enc hl _
  | case4 => intro x hx; simp [Encoding.Encode] at hx

/-- Without a remainder there is no padding to emit: the unpadded and the padded
URL-safe encodings of a byte string of length `3k` are the same text. -/
theorem Encode_raw_eq_padded (b : List Byte) (h : b.length % 3 = 0) :
    RawURLEncoding.Encode b = URLEncoding.Encode b := by
  induction b using Encoding.Encode.induct URLEncoding with
  | case1 a b c rest ih =>
    simp only [List.length_cons] at h
    have h2 : rest.length % 3 = 0 := by omega
    simp only [Encoding.Encode, ih h2]
    rfl
  | case2 a b => simp at h
  | case3 a => simp at h
  | case4 => rfl

theorem encodeURL_chars : ∀ c ∈ encodeURL,
    ((65 ≤ c.val ∧ c.val ≤ 90) ∨ (97 ≤ c.val ∧ c.val ≤ 122) ∨ (48 ≤ c.val ∧ c.val ≤ 57) ∨
      c.val = 45 ∨ c.val = 95) ∧ c.val ≠ 61 ∧ c.val ≠ 43 ∧ c.val ≠ 47 := by decide

/-! ## The decode step of `sendNotification` -/

theorem decodeKeyText_of_std_ok (text : List Byte)
    (h : (StdEncoding.DecodeString text).err = none) :
    decodeKeyText text = ⟨(StdEncoding.DecodeString text).bytes, none, [(.Std, text)]⟩ := by
  simp [decodeKeyText, h]

theorem decodeKeyText_of_std_err (text : List Byte)
    (h : (StdEncoding.DecodeString text).err ≠ none) :
    decodeKeyText text = ⟨(URLEncoding.DecodeString text).bytes,
      (StdEncoding.DecodeString text).err, [(.Std, text), (.URL, text)]⟩ := by
  simp [decodeKeyText, h]

/-- Whatever the standard decoder does, a text that the URL-safe decoder accepts is
decoded by the step to the bytes of the URL-safe decoder. -/
theorem decodeKeyText_of_url_ok (text : List Byte)
    (h : (URLEncoding.DecodeString text).err = none) :
    (decodeKeyText text).bytes = (URLEncoding.DecodeString text).bytes := by
  by_cases hs : (StdEncoding.DecodeString text).err = none
  · rw [decodeKeyText_of_std_ok text hs, DecodeString_std_url text hs h]
  · rw [decodeKeyText_of_std_err text hs]

/-! ## Unpadded text in front of the padded decoders -/

theorem encodeURL_plain : ∀ c ∈ encodeURL, c ≠ 10 ∧ c ≠ 13 ∧ c ≠ StdPadding := by decide

/-- A padded decoder that accepts a text without padding characters and newlines has
read a whole number of quanta. -/
theorem decodeLoop_plain_quanta (enc : Encoding) (p : Byte) (hp : enc.padChar = some p)
    (len : Nat) (src : List Byte) (hsrc : ∀ c ∈ src, c ≠ 10 ∧ c ≠ 13 ∧ c ≠ p) :
    ∀ (si : Nat) (dbuf : List Nat) (dst : List Byte), dbuf.length < 4 →
      (decodeLoop enc len src si dbuf dst).err = none → (dbuf.length + src.length) % 4 = 0 := by
  induction src with
  | nil =>
    intro si dbuf dst _ h
    by_cases hj : dbuf.length = 0
    · simp [hj]
    · simp [decodeLoop, hj, hp] at h
  | cons c rest ih =>
    intro si dbuf dst hl h
    have hc := hsrc c (List.mem_cons_self c rest)
    have hrest : ∀ x ∈ rest, x ≠ 10 ∧ x ≠ 13 ∧ x ≠ p :=
      fun x hx => hsrc x (List.mem_cons_of_mem c hx)
    by_cases hm : enc.decodeMap c = 0xFF
    · rw [decodeLoop_illegal _ _ _ _ _ _ _ hm (by simp [hc.1, hc.2.1])
        (by simp [hp, hc.2.2])] at h
      simp at h
    · by_cases h3 : dbuf.length = 3
      · rw [decodeLoop_sextet_last _ _ _ _ _ _ _ hm h3] at h
        have := ih hrest _ _ _ (by simp) h
        simp only [List.length_nil, List.length_cons] at this ⊢
        omega
      · rw [decodeLoop_sextet _ _ _ _ _ _ _ hm h3] at h
        have := ih hrest _ _ _
          (by simp only [List.length_append, List.length_cons, List.length_nil]; omega) h
        simp only [List.length_append, List.length_cons, List.length_nil] at this ⊢
        omega

/-- The standard decoder rejects the unpadded URL-safe text of a byte string whose
length is not a multiple of 3. -/
theorem std_rejects_raw (b : List Byte) (h : b.length % 3 ≠ 0) :
    (StdEncoding.DecodeString (RawURLEncoding.EncodeToString b)).err ≠ none := by
  intro hok
  rw [DecodeString_eq] at hok
  have hplain : ∀ c ∈ RawURLEncoding.Encode b, c ≠ 10 ∧ c ≠ 13 ∧ c ≠ StdPadding :=
    fun c hc => encodeURL_plain c (Encode_raw_mem RawURLEncoding rfl (by decide) b c hc)
  have := decodeLoop_plain_quanta StdEncoding StdPadding rfl _ _ hplain 0 [] [] (by simp) hok
  rw [Encode_raw_length RawURLEncoding rfl] at this
  simp only [List.length_nil] at this
  omega

/-- The URL-safe padded decoder decodes the full groups of the unpadded text and then
fails on the truncated last quantum. -/
theorem url_decodeLoop_raw (len : Nat) (b : List Byte) :
    ∀ (si : Nat) (dst : List Byte), b.length % 3 ≠ 0 →
      ∃ e, decodeLoop URLEncoding len (RawURLEncoding.Encode b) si [] dst
        = ⟨dst ++ b.take (b.length / 3 * 3), some e⟩ := by
  have d := fun x => sound_url.dec_enc (x &&& 0x3F) (sextet_lt x)
  have n : ∀ x, URLEncoding.decodeMap (URLEncoding.encodeAt (x &&& 0x3F)) ≠ 0xFF := by
    intro x
    rw [d x]
    have := sextet_lt x
    omega
  have e : RawURLEncoding.encodeAt = URLEncoding.encodeAt := rfl
  have hpad : RawURLEncoding.padChar = none := rfl
  induction b using Encoding.Encode.induct URLEncoding with
  | case1 a b c rest ih =>
    intro si dst h
    simp only [List.length_cons] at h
    have h2 : rest.length % 3 ≠ 0 := by omega
    obtain ⟨err, herr⟩ := ih (si + 4) (dst ++ [a, b, c]) h2
    refine ⟨err, ?_⟩
    simp only [Encoding.Encode, e]
    rw [decodeLoop_group URLEncoding sound_url, herr]
    have h3 : (rest.length + 1 + 1 + 1) / 3 * 3 = rest.length / 3 * 3 + 3 := by omega
    simp only [List.length_cons, h3, List.take_succ_cons, List.append_assoc, List.cons_append,
      List.nil_append]
  | case2 a b =>
    intro si dst _
    simp only [Encoding.Encode, e, hpad, List.append_nil]
    rw [decodeLoop_sextet _ _ _ _ _ _ _ (n _) (by simp),
      decodeLoop_sextet _ _ _ _ _ _ _ (n _) (by simp),
      decodeLoop_sextet _ _ _ _ _ _ _ (n _) (by simp)]
    simp [decodeLoop, URLEncoding]
  | case3 a =>
    intro si dst _
    simp only [Encoding.Encode, e, hpad, List.append_nil]
    rw [decodeLoop_sextet _ _ _ _ _ _ _ (n _) (by simp),
      decodeLoop_sextet _ _ _ _ _ _ _ (n _) (by simp)]
    simp [decodeLoop, URLEncoding]
  | case4 => intro si dst h; simp at h

/-! ## Texts that a padded decoder rejects -/

theorem skipNewlines_mem (c : Byte) (hc : ¬ (c = 10 ∨ c = 13)) (src : List Byte) :
    ∀ si, c ∈ src → c ∈ (skipNewlines src si).1 := by
  induction src with
  | nil => intro si h; simp at h
  | cons x rest ih =>
    intro si h
    by_cases hx : x = 10 ∨ x = 13
    · simp only [skipNewlines, hx, if_true]
      apply ih
      rcases List.mem_cons.mp h with h | h
      · rw [h] at hc; exact absurd hx hc
      · exact h
    · simpa only [skipNewlines, hx, if_false] using h

theorem finishQuantum_err (enc : Encoding) (dbuf : List Nat) (dlen si : Nat) (rest : List Byte)
    (e : GoError) : (finishQuantum enc dbuf dlen si rest (some e)).err ≠ none := by
  unfold finishQuantum
  simp only []
  split_ifs <;> simp

theorem padTail_rejects (enc : Encoding) (c : Byte) (hc : ¬ (c = 10 ∨ c = 13))
    (src : List Byte) (si : Nat) (dbuf : List Nat) (h : c ∈ src) :
    (padTail enc src si dbuf).err ≠ none := by
  unfold padTail
  have hm := skipNewlines_mem c hc src si h
  have hne : (skipNewlines src si).1.isEmpty = false := by
    cases hs : (skipNewlines src si).1 with
    | nil => rw [hs] at hm; simp at hm
    | cons _ _ => rfl
  simp only [hne, Bool.false_eq_true, if_false]
  exact finishQuantum_err _ _ _ _ _ _

theorem decodePadding_rejects (enc : Encoding) (p : Byte) (hp : enc.padChar = some p)
    (c : Byte) (hc : ¬ (c = 10 ∨ c = 13)) (hcp : c ≠ p) (len : Nat) (src : List Byte) (si : Nat)
    (dbuf : List Nat) (h : c ∈ src) :
    (decodePadding enc len src si dbuf).err ≠ none := by
  have hm := skipNewlines_mem c hc src si h
  by_cases h1 : dbuf.length = 0 ∨ dbuf.length = 1
  · simp only [decodePadding, h1, if_true]
    simp
  · by_cases h2 : dbuf.length = 2
    · simp only [decodePadding, h1, h2, if_false, if_true]
      cases hs : (skipNewlines src si).1 with
      | nil => simp
      | cons x src2 =>
        simp only
        rw [hs] at hm
        by_cases hx : some x = enc.padChar
        · simp only [hx, ne_eq, not_true_eq_false, if_false]
          apply padTail_rejects enc c hc
          rcases List.mem_cons.mp hm with h3 | h3
          · rw [hp] at hx
            rw [h3] at hcp
            exact absurd (Option.some.inj hx) hcp
          · exact h3
        · simp [hx]
    · simp only [decodePadding, h1, h2, if_false]
      exact padTail_rejects enc c hc _ _ _ h

/-- A padded decoder rejects every text that contains a character outside its alphabet
other than a newline and the padding character. -/
theorem decodeLoop_rejects (enc : Encoding) (p : Byte) (hp : enc.Padded p) (c : Byte)
    (hmap : enc.decodeMap c = 0xFF) (hc : ¬ (c = 10 ∨ c = 13)) (hcp : c ≠ p) (len : Nat)
    (src : List Byte) :
    ∀ (si : Nat) (dbuf : List Nat) (dst : List Byte), c ∈ src →
      (decodeLoop enc len src si dbuf dst).err ≠ none := by
  induction src with
  | nil => intro si dbuf dst h; simp at h
  | cons x rest ih =>
    intro si dbuf dst h
    by_cases hx : x = c
    · subst hx
      rw [decodeLoop_illegal _ _ _ _ _ _ _ hmap hc (by simp [hp.pad, hcp])]
      simp
    · have hrest : c ∈ rest := by
        rcases List.mem_cons.mp h with h1 | h1
        · exact absurd h1.symm hx
        · exact h1
      by_cases hm : enc.decodeMap x = 0xFF
      · by_cases hn : x = 10 ∨ x = 13
        · rw [decodeLoop_newline _ _ _ _ _ _ _ hm hn]
          exact ih _ _ _ hrest
        · by_cases hxp : x = p
          · subst hxp
            rw [decodeLoop_pad enc x hp]
            exact decodePadding_rejects enc x hp.pad c hc hcp _ _ _ _ hrest
          · rw [decodeLoop_illegal _ _ _ _ _ _ _ hm hn (by simp [hp.pad, hxp])]
            simp
      · by_cases h3 : dbuf.length = 3
        · rw [decodeLoop_sextet_last _ _ _ _ _ _ _ hm h3]
          exact ih _ _ _ hrest
        · rw [decodeLoop_sextet _ _ _ _ _ _ _ hm h3]
          exact ih _ _ _ hrest

/-- The standard decoder rejects every text that contains `-` or `_`. -/
theorem std_rejects_url_chars (text : List Byte) (h : (45 : Byte) ∈ text ∨ (95 : Byte) ∈ text) :
    (StdEncoding.DecodeString text).err ≠ none := by
  rw [DecodeString_eq]
  rcases h with h | h
  · exact decodeLoop_rejects StdEncoding StdPadding padded_std 45 (by decide) (by decide)
      (by decide) _ _ _ _ _ h
  · exact decodeLoop_rejects StdEncoding StdPadding padded_std 95 (by decide) (by decide)
      (by decide) _ _ _ _ _ h

/-! ## The salt and the batch -/

theorem ReadFull_length (r buf : List Byte) : (ReadFull r buf).buf.length = buf.length := by
  unfold ReadFull
  by_cases h : buf.length ≤ r.length
  · simp only [h, if_true, List.length_take]; omega
  · simp only [h, if_false, List.length_append, List.length_drop]; omega

theorem ReadFull_enough (r buf : List Byte) (h : buf.length ≤ r.length) :
    ReadFull r buf = ⟨r.take buf.length, r.drop buf.length, none⟩ := by
  simp [ReadFull, h]

theorem sendNotification_enough (message : List Byte) (sub : PushSubscription) (w : World)
    (h : 16 ≤ w.rand.length) :
    sendNotification message sub w
      = ⟨w.rand.drop 16,
         w.stdout ++ [⟨(decodeKeyText sub.key.P256dh).bytes, (decodeKeyText sub.key.Auth).bytes,
           w.rand.take 16⟩],
         w.decodeCalls ++ (decodeKeyText sub.key.P256dh).calls ++
           (decodeKeyText sub.key.Auth).calls⟩ := by
  unfold sendNotification
  rw [ReadFull_enough _ _ (by simpa using h)]
  simp

/-- The lines and calls that the loop of `Send` adds, one subscription after the
other. -/
theorem Send_loop_keys (message : List Byte) (subs : List PushSubscription) :
    ∀ w : World,
      ((subs.foldl (fun w sub => sendNotification message sub w) w).stdout.map
          (fun l => (l.P256dh, l.authKey))
        = w.stdout.map (fun l => (l.P256dh, l.authKey)) ++
          subs.map (fun sub =>
            ((decodeKeyText sub.key.P256dh).bytes, (decodeKeyText sub.key.Auth).bytes))) ∧
      ((subs.foldl (fun w sub => sendNotification message sub w) w).decodeCalls
        = w.decodeCalls ++ subs.flatMap (fun sub =>
            (decodeKeyText sub.key.P256dh).calls ++ (decodeKeyText sub.key.Auth).calls)) := by
  induction subs with
  | nil => intro w; simp
  | cons sub rest ih =>
    intro w
    simp only [List.foldl_cons]
    obtain ⟨h1, h2⟩ := ih (sendNotification message sub w)
    rw [h1, h2]
    simp [sendNotification]

/-- With enough random bytes, the loop of `Send` uses one 16-byte block per subscription,
in order. -/
theorem Send_loop_salts (message : List Byte) (subs : List PushSubscription) :
    ∀ w : World, 16 * subs.length ≤ w.rand.length →
      ((subs.foldl (fun w sub => sendNotification message sub w) w).stdout.map (fun l => l.salt)
        = w.stdout.map (fun l => l.salt) ++
          (List.range subs.length).map (fun i => (w.rand.drop (16 * i)).take 16)) ∧
      (subs.foldl (fun w sub => sendNotification message sub w) w).rand
        = w.rand.drop (16 * subs.length) := by
  induction subs with
  | nil => intro w _; simp
  | cons sub rest ih =>
    intro w h
    simp only [List.length_cons] at h
    simp only [List.foldl_cons]
    rw [sendNotification_enough message sub w (by omega)]
    obtain ⟨h1, h2⟩ := ih ⟨w.rand.drop 16, _, _⟩ (by simp only [List.length_drop]; omega)
    rw [h1, h2]
    constructor
    · simp only [List.map_append, List.map_cons, List.map_nil, List.length_cons,
        List.range_succ_eq_map, List.map_map, List.append_assoc, List.singleton_append,
        Nat.mul_zero, List.drop_zero, List.drop_drop]
      congr 2
      apply List.map_congr_left
      intro i _
      simp only [Function.comp]
      congr 2
      omega
    · simp only [List.drop_drop, List.length_cons]
      congr 1
      omega

/-! ## What `GenerateVAPID` returns -/

theorem mask_P256 : mask.getD (bitLen P256.N % 8) 0 = 0xff := by
  rw [bitLen_P256_N]
  rfl

theorem P256_P_pos : 0 < P256.P := by decide

theorem fixedBytes_length (n x : Nat) : (fixedBytes n x).length = n := by
  simp [fixedBytes]

theorem Marshal_P256 (x y : Nat) : Marshal P256 x y = 4 :: (fixedBytes 32 x ++ fixedBytes 32 y) := rfl

theorem GenerateVAPID_of_error (rand : List Byte) (e : GoError)
    (h : (GenerateKey P256 rand).key = .error e) :
    GenerateVAPID rand = ⟨[], [], some e, (GenerateKey P256 rand).rand⟩ := by
  unfold GenerateVAPID
  simp only [h]

theorem GenerateVAPID_of_ok (rand : List Byte) (k : List Byte) (xy : Nat × Nat)
    (h : (GenerateKey P256 rand).key = .ok (k, xy)) :
    GenerateVAPID rand = ⟨RawURLEncoding.EncodeToString k,
      RawURLEncoding.EncodeToString (4 :: (fixedBytes 32 xy.1 ++ fixedBytes 32 xy.2)), none,
      (GenerateKey P256 rand).rand⟩ := by
  unfold GenerateVAPID
  simp only [h, Marshal_P256]

/-- The private key that `GenerateVAPID` derives from a random source delivering 32 zero
bytes: `priv[1] ^= 0x42` turns the second byte into `0x42`. -/
theorem tweakScalar_zeros :
    tweakScalar P256 ((List.replicate 32 (0 : Byte)).take 32) = 0 :: 66 :: List.replicate 30 0 := by
  simp only [tweakScalar, mask_P256]
  decide

theorem GenerateKey_zeros :
    (GenerateKey P256 (List.replicate 32 0)).key
      = .ok (0 :: 66 :: List.replicate 30 0, ScalarBaseMult P256 (0 :: 66 :: List.replicate 30 0)) := by
  rw [GenerateKey_P256_accept _ (by decide) (by rw [tweakScalar_zeros]; decide), tweakScalar_zeros]

/-! ## Fixed-width big-endian bytes -/

theorem SetBytes_foldl (l : List Byte) : ∀ acc : Nat,
    l.foldl (fun acc x => acc * 256 + x.val) acc = acc * 256 ^ l.length + SetBytes l := by
  induction l with
  | nil => intro acc; simp [SetBytes]
  | cons b rest ih =>
    intro acc
    simp only [SetBytes, List.foldl_cons, List.length_cons]
    rw [ih, ih (0 * 256 + b.val)]
    ring

theorem fixedBytes_succ (n x : Nat) :
    fixedBytes (n + 1) x = byte (x >>> (8 * n)) :: fixedBytes n x := by
  simp only [fixedBytes, List.range_succ_eq_map, List.map_cons, List.map_map]
  refine congrArg₂ _ (by simp) ?_
  apply List.map_congr_left
  intro i _
  simp only [Function.comp]
  congr 2
  omega

/-- The fixed-width field holds the big-endian digits of the number. -/
theorem SetBytes_fixedBytes (n x : Nat) : SetBytes (fixedBytes n x) = x % 2 ^ (8 * n) := by
  induction n with
  | zero => simp [fixedBytes, SetBytes, Nat.mod_one]
  | succ n ih =>
    rw [fixedBytes_succ]
    have h := SetBytes_foldl (fixedBytes n x) (byte (x >>> (8 * n))).val
    have e : SetBytes (byte (x >>> (8 * n)) :: fixedBytes n x)
        = (fixedBytes n x).foldl (fun acc x => acc * 256 + x.val) (byte (x >>> (8 * n))).val := by
      simp [SetBytes]
    rw [e, h, ih, fixedBytes_length]
    simp only [byte, Nat.shiftRight_eq_div_pow]
    have h256 : (256 : Nat) ^ n = 2 ^ (8 * n) := by
      rw [show (256 : Nat) = 2 ^ 8 by norm_num, ← pow_mul]
    have hsucc : 2 ^ (8 * (n + 1)) = 2 ^ (8 * n) * 256 := by
      rw [show 8 * (n + 1) = 8 * n + 8 by ring, pow_add]
      norm_num
    rw [h256, hsucc, Nat.mod_mul]
    ring

theorem SetBytes_fixedBytes_P256 (x : Nat) (h : x < P256.P) : SetBytes (fixedBytes 32 x) = x := by
  rw [SetBytes_fixedBytes]
  apply Nat.mod_eq_of_lt
  have : P256.P < 2 ^ (8 * 32) := by decide
  omega

/-- What a successful `GenerateVAPID` returns, in terms of the key that `GenerateKey`
produced. -/
theorem GenerateVAPID_ok_shape (rand : List Byte) (h : (GenerateVAPID rand).err = none) :
    ∃ priv x y,
      (GenerateKey P256 rand).key = .ok (priv, x, y) ∧
      priv.length = 32 ∧ (x, y) = ScalarBaseMult P256 priv ∧
      (GenerateVAPID rand).vapidPrivateKey = RawURLEncoding.EncodeToString priv ∧
      (GenerateVAPID rand).vapidPublicKey
        = RawURLEncoding.EncodeToString (4 :: (fixedBytes 32 x ++ fixedBytes 32 y)) := by
  cases hk : (GenerateKey P256 rand).key with
  | error e =>
    rw [GenerateVAPID_of_error rand e hk] at h
    simp at h
  | ok kxy =>
    obtain ⟨k, x, y⟩ := kxy
    have hok := GenerateKey_P256_ok rand k x y hk
    refine ⟨k, x, y, rfl, hok.1, hok.2.2, ?_, ?_⟩
    · rw [GenerateVAPID_of_ok rand k (x, y) hk]
    · rw [GenerateVAPID_of_ok rand k (x, y) hk]

/-! ## The claims -/

/-- C1 (counterexample). The claim fails on a key of the package's own encoder: a random
source that delivers 32 zero bytes makes `GenerateVAPID` return the unpadded URL-safe
text of the 32-byte private key `00 42 00 ... 00`, and the decode step of
`sendNotification` does not return these 32 bytes for that text. -/
theorem GenerateVAPID_private_key_not_decoded :
    (GenerateVAPID (List.replicate 32 0)).vapidPrivateKey
      = RawURLEncoding.EncodeToString (0 :: 66 :: List.replicate 30 0) ∧
    (decodeKeyText (RawURLEncoding.EncodeToString (0 :: 66 :: List.replicate 30 0))).bytes
      ≠ 0 :: 66 :: List.replicate 30 0 := by
  constructor
  · rw [GenerateVAPID_of_ok _ _ _ GenerateKey_zeros]
  · decide

/-- C1 (amended). The decode step of `sendNotification` (standard base64, then URL-safe
base64 on failure, both padded) applied to the unpadded URL-safe text of `b` returns
exactly `b` when the length of `b` is a multiple of 3, where the unpadded text has no
padding to miss. For every other length, so for a 32-byte private key and a 65-byte
public key, both padded decoders reject the text and the step keeps only the first
`3 * (len b / 3)` bytes of `b`. -/
theorem decodeKeyText_RawURLEncoding (b : List Byte) :
    (b.length % 3 = 0 → (decodeKeyText (RawURLEncoding.EncodeToString b)).bytes = b) ∧
    (b.length % 3 ≠ 0 →
      (StdEncoding.DecodeString (RawURLEncoding.EncodeToString b)).err ≠ none ∧
      (URLEncoding.DecodeString (RawURLEncoding.EncodeToString b)).err ≠ none ∧
      (decodeKeyText (RawURLEncoding.EncodeToString b)).bytes = b.take (b.length / 3 * 3) ∧
      (decodeKeyText (RawURLEncoding.EncodeToString b)).bytes ≠ b) := by
  constructor
  · intro h
    have e : RawURLEncoding.EncodeToString b = URLEncoding.EncodeToString b :=
      Encode_raw_eq_padded b h
    have r := DecodeString_EncodeToString URLEncoding sound_url StdPadding padded_url b
    rw [e, decodeKeyText_of_url_ok _ (by rw [r]), r]
  · intro h
    have hs := std_rejects_raw b h
    obtain ⟨e, he⟩ := url_decodeLoop_raw (RawURLEncoding.Encode b).length b 0 [] h
    have hu : URLEncoding.DecodeString (RawURLEncoding.EncodeToString b)
        = ⟨b.take (b.length / 3 * 3), some e⟩ := by
      rw [DecodeString_eq]
      unfold Encoding.EncodeToString
      rw [he]
      simp
    have hb : (decodeKeyText (RawURLEncoding.EncodeToString b)).bytes
        = b.take (b.length / 3 * 3) := by
      rw [decodeKeyText_of_std_err _ hs, hu]
    refine ⟨hs, by rw [hu]; simp, hb, ?_⟩
    rw [hb]
    intro hcontra
    have hl := congrArg List.length hcontra
    simp only [List.length_take] at hl
    omega

/-- C1 (amended), at the 3-byte string `fb ff bf`, whose unpadded URL-safe text is
`-_-_`. -/
theorem decodeKeyText_RawURLEncoding_witness :
    (decodeKeyText (RawURLEncoding.EncodeToString [251, 255, 191])).bytes = [251, 255, 191] :=
  (decodeKeyText_RawURLEncoding [251, 255, 191]).1 (by decide)

/-- C2 (counterexample). The text `###` parses neither as standard nor as URL-safe base64,
yet `sendNotification` on a subscription with that text for both keys does not stop: it
reads the 16-byte salt from the random source and prints a line (with empty key bytes). -/
theorem sendNotification_undecodable_text_processed :
    (StdEncoding.DecodeString (stringBytes "###")).err ≠ none ∧
    (URLEncoding.DecodeString (stringBytes "###")).err ≠ none ∧
    sendNotification (stringBytes "Test Notification")
        ⟨[], [], ⟨stringBytes "###", stringBytes "###"⟩⟩ ⟨List.replicate 16 7, [], []⟩
      = ⟨[], [⟨[], [], List.replicate 16 7⟩],
          [(.Std, stringBytes "###"), (.URL, stringBytes "###"),
           (.Std, stringBytes "###"), (.URL, stringBytes "###")]⟩ := by
  decide

/-- C2 (amended). For every key text that parses neither as standard nor as URL-safe
base64, both `DecodeString` calls of the decode step report an error, but the step does
not fail: the error of the URL-safe decoder is discarded and the step yields the bytes
that decoder had produced before its error. `sendNotification` on a subscription with
such a text, as `P256dh` or as `Auth`, still reads the salt and prints its line. -/
theorem decodeKeyText_discards_error (text : List Byte)
    (hs : (StdEncoding.DecodeString text).err ≠ none)
    (hu : (URLEncoding.DecodeString text).err ≠ none) :
    (∃ e, URLEncoding.DecodeString text = ⟨(decodeKeyText text).bytes, some e⟩) ∧
    (decodeKeyText text).err = (StdEncoding.DecodeString text).err ∧
    (decodeKeyText text).calls = [(.Std, text), (.URL, text)] ∧
    ∀ (message : List Byte) (sub : PushSubscription) (w : World),
      sub.key.P256dh = text ∨ sub.key.Auth = text →
      (sendNotification message sub w).stdout
        = w.stdout ++ [⟨(decodeKeyText sub.key.P256dh).bytes, (decodeKeyText sub.key.Auth).bytes,
            (ReadFull w.rand (List.replicate 16 0)).buf⟩] ∧
      (sendNotification message sub w).rand = (ReadFull w.rand (List.replicate 16 0)).rest := by
  obtain ⟨e, he⟩ := Option.ne_none_iff_exists.mp hu
  rw [decodeKeyText_of_std_err text hs]
  refine ⟨⟨e, ?_⟩, rfl, rfl, fun _ _ _ _ => ⟨rfl, rfl⟩⟩
  rw [he]

/-- C2 (amended), at the text `####`: the step yields no bytes and keeps the error of the
standard decoder in `err`. -/
theorem decodeKeyText_discards_error_witness :
    (∃ e, URLEncoding.DecodeString (stringBytes "####")
        = ⟨(decodeKeyText (stringBytes "####")).bytes, some e⟩) ∧
    (decodeKeyText (stringBytes "####")).err = some (.CorruptInputError 0) :=
  ⟨(decodeKeyText_discards_error (stringBytes "####") (by decide) (by decide)).1,
    (decodeKeyText_discards_error (stringBytes "####") (by decide) (by decide)).2.1.trans
      (by decide)⟩

/-- C3. Ordered decode attempt: for every subscription, `sendNotification` prints for
`P256dh` and for `Auth` the bytes of the decode step on the key text, and these are the
bytes of the standard decoder whenever it succeeds and the bytes of the URL-safe decoder
on the same text when the standard decoder fails; the URL-safe decoder is called exactly
when the standard decoder has failed. -/
theorem sendNotification_ordered_decode (message : List Byte) (sub : PushSubscription)
    (w : World) :
    (∃ salt, (sendNotification message sub w).stdout
      = w.stdout ++ [⟨(decodeKeyText sub.key.P256dh).bytes,
          (decodeKeyText sub.key.Auth).bytes, salt⟩]) ∧
    (sendNotification message sub w).decodeCalls
      = w.decodeCalls ++ (decodeKeyText sub.key.P256dh).calls ++
          (decodeKeyText sub.key.Auth).calls ∧
    ∀ text : List Byte,
      ((StdEncoding.DecodeString text).err = none →
        (decodeKeyText text).bytes = (StdEncoding.DecodeString text).bytes ∧
        (decodeKeyText text).calls = [(.Std, text)]) ∧
      ((StdEncoding.DecodeString text).err ≠ none →
        (decodeKeyText text).bytes = (URLEncoding.DecodeString text).bytes ∧
        (decodeKeyText text).calls = [(.Std, text), (.URL, text)]) ∧
      ((Variant.URL, text) ∈ (decodeKeyText text).calls ↔
        (StdEncoding.DecodeString text).err ≠ none) := by
  refine ⟨⟨_, rfl⟩, rfl, ?_⟩
  intro text
  by_cases h : (StdEncoding.DecodeString text).err = none
  · rw [decodeKeyText_of_std_ok text h]
    simp [h]
  · rw [decodeKeyText_of_std_err text h]
    simp [h]

/-- C3, at a subscription whose `P256dh` text `BA==` is standard base64 and whose `Auth`
text `-_-_` is URL-safe only: one decoder call for the first, two for the second. -/
theorem sendNotification_ordered_decode_witness :
    (sendNotification [] ⟨[], [], ⟨stringBytes "BA==", stringBytes "-_-_"⟩⟩
        ⟨List.replicate 16 1, [], []⟩).decodeCalls
      = [(.Std, stringBytes "BA=="), (.Std, stringBytes "-_-_"), (.URL, stringBytes "-_-_")] :=
  (sendNotification_ordered_decode [] ⟨[], [], ⟨stringBytes "BA==", stringBytes "-_-_"⟩⟩
    ⟨List.replicate 16 1, [], []⟩).2.1.trans (by decide)

/-- C4. Both padded alphabets are accepted: for every byte string `b`, the decode step of
`sendNotification` returns exactly `b` on the padded standard base64 text of `b` and on
the padded URL-safe base64 text of `b`; when the URL-safe text contains `-` or `_`, the
standard decoder rejects it and the bytes come from the URL-safe decoder. -/
theorem decodeKeyText_padded (b : List Byte) :
    (decodeKeyText (StdEncoding.EncodeToString b)).bytes = b ∧
    (decodeKeyText (URLEncoding.EncodeToString b)).bytes = b ∧
    ((45 : Byte) ∈ URLEncoding.EncodeToString b ∨ (95 : Byte) ∈ URLEncoding.EncodeToString b →
      (StdEncoding.DecodeString (URLEncoding.EncodeToString b)).err ≠ none ∧
      (decodeKeyText (URLEncoding.EncodeToString b)).calls
        = [(.Std, URLEncoding.EncodeToString b), (.URL, URLEncoding.EncodeToString b)]) := by
  have rs := DecodeString_EncodeToString StdEncoding sound_std StdPadding padded_std b
  have ru := DecodeString_EncodeToString URLEncoding sound_url StdPadding padded_url b
  refine ⟨?_, ?_, ?_⟩
  · rw [decodeKeyText_of_std_ok _ (by rw [rs]), rs]
  · rw [decodeKeyText_of_url_ok _ (by rw [ru]), ru]
  · intro h
    have hs := std_rejects_url_chars _ h
    exact ⟨hs, by rw [decodeKeyText_of_std_err _ hs]⟩

/-- C4, at the bytes `fb ff bf`, whose URL-safe text `-_-_` the standard decoder
rejects. -/
theorem decodeKeyText_padded_witness :
    (45 : Byte) ∈ URLEncoding.EncodeToString [251, 255, 191] ∧
    (decodeKeyText (URLEncoding.EncodeToString [251, 255, 191])).bytes = [251, 255, 191] ∧
    (StdEncoding.DecodeString (URLEncoding.EncodeToString [251, 255, 191])).err ≠ none :=
  ⟨by decide, (decodeKeyText_padded [251, 255, 191]).2.1,
    ((decodeKeyText_padded [251, 255, 191]).2.2 (Or.inl (by decide))).1⟩

/-- C5. Output format of `GenerateVAPID`: whenever key generation succeeds on the random
source, the returned private and public strings are the unpadded URL-safe base64
encodings of the 32-byte private scalar `priv` and of the 65-byte uncompressed point
`0x04 || X || Y` of `priv * G`, `X` and `Y` being the 32-byte big-endian coordinates; they
have 43 and 87 characters, every character is one of `A-Z a-z 0-9 - _`, and none is `=`,
`+` or `/`. -/
theorem GenerateVAPID_output_format (rand : List Byte) (h : (GenerateVAPID rand).err = none) :
    ∃ priv x y,
      (GenerateKey P256 rand).key = .ok (priv, x, y) ∧
      priv.length = 32 ∧ (x, y) = ScalarBaseMult P256 priv ∧
      SetBytes (fixedBytes 32 x) = x ∧ SetBytes (fixedBytes 32 y) = y ∧
      (4 :: (fixedBytes 32 x ++ fixedBytes 32 y)).length = 65 ∧
      (GenerateVAPID rand).vapidPrivateKey = RawURLEncoding.EncodeToString priv ∧
      (GenerateVAPID rand).vapidPublicKey
        = RawURLEncoding.EncodeToString (4 :: (fixedBytes 32 x ++ fixedBytes 32 y)) ∧
      (GenerateVAPID rand).vapidPrivateKey.length = 43 ∧
      (GenerateVAPID rand).vapidPublicKey.length = 87 ∧
      ∀ c ∈ (GenerateVAPID rand).vapidPrivateKey ++ (GenerateVAPID rand).vapidPublicKey,
        ((65 ≤ c.val ∧ c.val ≤ 90) ∨ (97 ≤ c.val ∧ c.val ≤ 122) ∨ (48 ≤ c.val ∧ c.val ≤ 57) ∨
          c.val = 45 ∨ c.val = 95) ∧ c.val ≠ 61 ∧ c.val ≠ 43 ∧ c.val ≠ 47 := by
  obtain ⟨priv, x, y, hk, hlen, hxy, hpriv, hpub⟩ := GenerateVAPID_ok_shape rand h
  have hlt := ScalarBaseMult_lt P256 P256_P_pos priv
  rw [← hxy] at hlt
  have h65 : (4 :: (fixedBytes 32 x ++ fixedBytes 32 y)).length = 65 := by
    simp [fixedBytes_length]
  refine ⟨priv, x, y, hk, hlen, hxy, SetBytes_fixedBytes_P256 x hlt.1,
    SetBytes_fixedBytes_P256 y hlt.2, h65, hpriv, hpub, ?_, ?_, ?_⟩
  · rw [hpriv]
    unfold Encoding.EncodeToString
    rw [Encode_raw_length RawURLEncoding rfl, hlen]
  · rw [hpub]
    unfold Encoding.EncodeToString
    rw [Encode_raw_length RawURLEncoding rfl, h65]
  · intro c hc
    rw [hpriv, hpub] at hc
    apply encodeURL_chars
    rcases List.mem_append.mp hc with h1 | h1
    · exact Encode_raw_mem RawURLEncoding rfl (by decide) _ c h1
    · exact Encode_raw_mem RawURLEncoding rfl (by decide) _ c h1

/-- C5, at a random source that delivers 32 zero bytes: key generation succeeds and the
two strings have 43 and 87 characters. -/
theorem GenerateVAPID_output_format_witness :
    (GenerateVAPID (List.replicate 32 0)).err = none ∧
    ∃ priv x y,
      (GenerateKey P256 (List.replicate 32 0)).key = .ok (priv, x, y) ∧
      priv.length = 32 ∧ (x, y) = ScalarBaseMult P256 priv ∧
      SetBytes (fixedBytes 32 x) = x ∧ SetBytes (fixedBytes 32 y) = y ∧
      (4 :: (fixedBytes 32 x ++ fixedBytes 32 y)).length = 65 ∧
      (GenerateVAPID (List.replicate 32 0)).vapidPrivateKey = RawURLEncoding.EncodeToString priv ∧
      (GenerateVAPID (List.replicate 32 0)).vapidPublicKey
        = RawURLEncoding.EncodeToString (4 :: (fixedBytes 32 x ++ fixedBytes 32 y)) ∧
      (GenerateVAPID (List.replicate 32 0)).vapidPrivateKey.length = 43 ∧
      (GenerateVAPID (List.replicate 32 0)).vapidPublicKey.length = 87 ∧
      ∀ c ∈ (GenerateVAPID (List.replicate 32 0)).vapidPrivateKey ++
          (GenerateVAPID (List.replicate 32 0)).vapidPublicKey,
        ((65 ≤ c.val ∧ c.val ≤ 90) ∨ (97 ≤ c.val ∧ c.val ≤ 122) ∨ (48 ≤ c.val ∧ c.val ≤ 57) ∨
          c.val = 45 ∨ c.val = 95) ∧ c.val ≠ 61 ∧ c.val ≠ 43 ∧ c.val ≠ 47 :=
  have h : (GenerateVAPID (List.replicate 32 0)).err = none := by
    rw [GenerateVAPID_of_ok _ _ _ GenerateKey_zeros]
  ⟨h, GenerateVAPID_output_format (List.replicate 32 0) h⟩

/-- C6 (counterexample). A subscription whose `Auth` text `AAAA` decodes to 3 bytes, not
16, and whose `P256dh` text `BA==` decodes to 1 byte, not to a 65-byte point, is not
rejected: `sendNotification` reads the salt from the random source and prints the decoded
key bytes. -/
theorem sendNotification_invalid_keys_processed :
    (decodeKeyText (stringBytes "AAAA")).bytes.length ≠ 16 ∧
    (decodeKeyText (stringBytes "BA==")).bytes.length ≠ 65 ∧
    sendNotification (stringBytes "Test Notification")
        ⟨[], [], ⟨stringBytes "BA==", stringBytes "AAAA"⟩⟩ ⟨List.replicate 16 9, [], []⟩
      = ⟨[], [⟨[4], [0, 0, 0], List.replicate 16 9⟩],
          [(.Std, stringBytes "BA=="), (.Std, stringBytes "AAAA")]⟩ := by
  decide

/-- C6 (amended). `sendNotification` does not validate the decoded keys: for every
subscription, whatever number of bytes its `Auth` text decodes to and whether or not
its `P256dh` text decodes to a 65-byte point of the curve, it reads the salt from the
random source and prints the decoded bytes of both keys as they are. -/
theorem sendNotification_no_validation (message : List Byte) (sub : PushSubscription)
    (w : World) :
    (sendNotification message sub w).stdout
      = w.stdout ++ [⟨(decodeKeyText sub.key.P256dh).bytes, (decodeKeyText sub.key.Auth).bytes,
          (ReadFull w.rand (List.replicate 16 0)).buf⟩] ∧
    (sendNotification message sub w).rand = (ReadFull w.rand (List.replicate 16 0)).rest ∧
    (16 ≤ w.rand.length →
      (sendNotification message sub w).rand = w.rand.drop 16 ∧
      (ReadFull w.rand (List.replicate 16 0)).buf = w.rand.take 16) := by
  refine ⟨rfl, rfl, ?_⟩
  intro h
  rw [sendNotification_enough message sub w h, ReadFull_enough _ _ (by simpa using h)]
  simp

/-- C6 (amended), at a subscription with empty key texts and a random source delivering
sixteen bytes `5`. -/
theorem sendNotification_no_validation_witness :
    (sendNotification [] ⟨[], [], ⟨[], []⟩⟩ ⟨List.replicate 16 5, [], []⟩).stdout
      = [⟨[], [], List.replicate 16 5⟩] ∧
    (sendNotification [] ⟨[], [], ⟨[], []⟩⟩ ⟨List.replicate 16 5, [], []⟩).rand = [] :=
  ⟨(sendNotification_no_validation [] ⟨[], [], ⟨[], []⟩⟩ ⟨List.replicate 16 5, [], []⟩).1.trans
      (by decide),
    ((sendNotification_no_validation [] ⟨[], [], ⟨[], []⟩⟩ ⟨List.replicate 16 5, [], []⟩).2.2
      (by decide)).1.trans (by decide)⟩

/-- C7. Error contract of `GenerateVAPID`: the returned error is non-nil if and only if
`elliptic.GenerateKey` on P-256 fails on the random source; in that case the error is
that of `GenerateKey` and both returned strings are empty; when the error is nil both
returned strings are non-empty. -/
theorem GenerateVAPID_error_contract (rand : List Byte) :
    ((GenerateVAPID rand).err ≠ none ↔ ∃ e, (GenerateKey P256 rand).key = .error e) ∧
    (∀ e, (GenerateKey P256 rand).key = .error e →
      (GenerateVAPID rand).err = some e ∧
      (GenerateVAPID rand).vapidPrivateKey = [] ∧ (GenerateVAPID rand).vapidPublicKey = []) ∧
    ((GenerateVAPID rand).err ≠ none →
      (GenerateVAPID rand).vapidPrivateKey = [] ∧ (GenerateVAPID rand).vapidPublicKey = []) ∧
    ((GenerateVAPID rand).err = none →
      (GenerateVAPID rand).vapidPrivateKey ≠ [] ∧ (GenerateVAPID rand).vapidPublicKey ≠ []) := by
  have herr : ∀ e, (GenerateKey P256 rand).key = .error e →
      (GenerateVAPID rand).err = some e ∧
      (GenerateVAPID rand).vapidPrivateKey = [] ∧ (GenerateVAPID rand).vapidPublicKey = [] := by
    intro e he
    rw [GenerateVAPID_of_error rand e he]
    exact ⟨rfl, rfl, rfl⟩
  have hiff : (GenerateVAPID rand).err ≠ none ↔ ∃ e, (GenerateKey P256 rand).key = .error e := by
    constructor
    · intro h
      cases hk : (GenerateKey P256 rand).key with
      | error e => exact ⟨e, rfl⟩
      | ok kxy =>
        rw [GenerateVAPID_of_ok rand kxy.1 kxy.2 hk] at h
        simp at h
    · rintro ⟨e, he⟩
      rw [(herr e he).1]
      simp
  refine ⟨hiff, herr, ?_, ?_⟩
  · intro h
    obtain ⟨e, he⟩ := hiff.mp h
    exact (herr e he).2
  · intro h
    obtain ⟨priv, x, y, _, hlen, _, hpriv, hpub⟩ := GenerateVAPID_ok_shape rand h
    have h1 : (GenerateVAPID rand).vapidPrivateKey.length = 43 := by
      rw [hpriv]
      unfold Encoding.EncodeToString
      rw [Encode_raw_length RawURLEncoding rfl, hlen]
    have h2 : (GenerateVAPID rand).vapidPublicKey.length = 87 := by
      rw [hpub]
      unfold Encoding.EncodeToString
      rw [Encode_raw_length RawURLEncoding rfl]
      simp [fixedBytes_length]
    constructor
    · intro h0
      rw [h0] at h1
      simp at h1
    · intro h0
      rw [h0] at h2
      simp at h2

/-- C7, at a random source that fails after 31 bytes (key generation fails) and at one
that delivers 32 zero bytes (key generation succeeds). -/
theorem GenerateVAPID_error_contract_witness :
    ((GenerateVAPID (List.replicate 31 0)).vapidPrivateKey = [] ∧
      (GenerateVAPID (List.replicate 31 0)).vapidPublicKey = []) ∧
    ((GenerateVAPID (List.replicate 32 0)).vapidPrivateKey ≠ [] ∧
      (GenerateVAPID (List.replicate 32 0)).vapidPublicKey ≠ []) :=
  ⟨(GenerateVAPID_error_contract (List.replicate 31 0)).2.2.1
      ((GenerateVAPID_error_contract (List.replicate 31 0)).1.mpr
        (by
          unfold GenerateKey
          exact generateKeyLoop_short P256 _ _ _
            (by simp only [bitLen_P256_N, List.length_replicate]; decide))),
    (GenerateVAPID_error_contract (List.replicate 32 0)).2.2.2
      (by rw [GenerateVAPID_of_ok _ _ _ GenerateKey_zeros])⟩

/-- C8. `Send` covers the whole batch: for every sender and every outside state, `Send`
runs `sendNotification` once for each element of `PushSubscriptions` in list order (one
printed line per subscription, carrying the decoded keys of that subscription, and the
decode calls of that subscription, in order), whatever the key texts are; it returns
`len(PushSubscriptions)` and leaves the sender unchanged. A sender fresh from `NewSender`
or after `Initialize` has an empty list, and `Send` returns 0 on it. -/
theorem Send_covers_batch (s : Sender) (w : World) :
    (s.Send w).ret = s.PushSubscriptions.length ∧
    (s.Send w).sender = s ∧
    (s.Send w).world.stdout.length = w.stdout.length + s.PushSubscriptions.length ∧
    (s.Send w).world.stdout.map (fun l => (l.P256dh, l.authKey))
      = w.stdout.map (fun l => (l.P256dh, l.authKey)) ++
        s.PushSubscriptions.map (fun sub =>
          ((decodeKeyText sub.key.P256dh).bytes, (decodeKeyText sub.key.Auth).bytes)) ∧
    (s.Send w).world.decodeCalls
      = w.decodeCalls ++ s.PushSubscriptions.flatMap (fun sub =>
          (decodeKeyText sub.key.P256dh).calls ++ (decodeKeyText sub.key.Auth).calls) ∧
    NewSender.PushSubscriptions = [] ∧
    s.Initialize.PushSubscriptions = [] ∧
    NewSender.Send w = ⟨NewSender, w, 0⟩ ∧
    s.Initialize.Send w = ⟨s.Initialize, w, 0⟩ := by
  obtain ⟨h1, h2⟩ := Send_loop_keys (stringBytes "Test Notification") s.PushSubscriptions w
  refine ⟨rfl, rfl, ?_, h1, h2, rfl, rfl, rfl, rfl⟩
  have := congrArg List.length h1
  simpa [Sender.Send] using this

/-- C9. Per-message salt, the random source being an explicit byte stream: every call of
`sendNotification` prints a salt of exactly 16 bytes, and these are the next 16 bytes of
the random source whenever it delivers them, whatever the subscription and the message;
`Send` over `n` subscriptions, on a source that delivers `16 * n` bytes, uses the `n`
successive disjoint 16-byte blocks of the source as the salts, in order, and leaves the
source advanced by `16 * n` bytes. -/
theorem Send_fresh_salts (s : Sender) (w : World)
    (h : 16 * s.PushSubscriptions.length ≤ w.rand.length) :
    (∀ (message : List Byte) (sub : PushSubscription) (w0 : World),
      ∃ line, (sendNotification message sub w0).stdout = w0.stdout ++ [line] ∧
        line.salt.length = 16 ∧
        (16 ≤ w0.rand.length →
          line.salt = w0.rand.take 16 ∧
          (sendNotification message sub w0).rand = w0.rand.drop 16)) ∧
    (s.Send w).world.stdout.map (fun l => l.salt)
      = w.stdout.map (fun l => l.salt) ++
        (List.range s.PushSubscriptions.length).map (fun i => (w.rand.drop (16 * i)).take 16) ∧
    (s.Send w).world.rand = w.rand.drop (16 * s.PushSubscriptions.length) := by
  refine ⟨?_, Send_loop_salts _ s.PushSubscriptions w h⟩
  intro message sub w0
  refine ⟨_, rfl, ?_, ?_⟩
  · simp only [ReadFull_length, List.length_replicate]
  · intro h0
    rw [sendNotification_enough message sub w0 h0, ReadFull_enough _ _ (by simpa using h0)]
    simp

/-- C9, at a batch of two subscriptions and a random source delivering the bytes
`0, 1, ..., 31`: the two salts are `0..15` and `16..31`. -/
theorem Send_fresh_salts_witness :
    16 * 2 ≤ 32 ∧
    ((Sender.mk [⟨[], [], ⟨stringBytes "BA==", stringBytes "AAAA"⟩⟩,
        ⟨[], [], ⟨stringBytes "###", []⟩⟩]).Send
      ⟨(List.range 32).map byte, [], []⟩).world.stdout.map (fun l => l.salt)
      = [(List.range 16).map byte, (List.range 16).map (fun i => byte (i + 16))] :=
  ⟨by decide,
    (Send_fresh_salts
      (Sender.mk [⟨[], [], ⟨stringBytes "BA==", stringBytes "AAAA"⟩⟩,
        ⟨[], [], ⟨stringBytes "###", []⟩⟩])
      ⟨(List.range 32).map byte, [], []⟩ (by decide)).2.1.trans (by decide)⟩

/-- C10. The decode fallback is order-independent: on every text that both the padded
standard decoder and the padded URL-safe decoder accept, the two return the same bytes;
hence on every text that at least one of them accepts, the decode step of
`sendNotification` returns the same bytes as the step with the URL-safe decoder tried
first and the standard decoder second. -/
theorem decodeKeyText_order_independent (text : List Byte) :
    ((StdEncoding.DecodeString text).err = none → (URLEncoding.DecodeString text).err = none →
      (StdEncoding.DecodeString text).bytes = (URLEncoding.DecodeString text).bytes) ∧
    ((StdEncoding.DecodeString text).err = none ∨ (URLEncoding.DecodeString text).err = none →
      (decodeKeyText text).bytes = (decodeKeyTextURLFirst text).bytes) := by
  constructor
  · intro h1 h2
    rw [DecodeString_std_url text h1 h2]
  · intro h
    by_cases hu : (URLEncoding.DecodeString text).err = none
    · rw [decodeKeyText_of_url_ok text hu]
      simp [decodeKeyTextURLFirst, hu]
    · have hs : (StdEncoding.DecodeString text).err = none := by
        rcases h with h | h
        · exact h
        · exact absurd h hu
      rw [decodeKeyText_of_std_ok text hs]
      simp [decodeKeyTextURLFirst, hu]

/-- C10, at the text `Zm9v`, which both decoders accept, and at the text `-_-_`, which
only the URL-safe decoder accepts. -/
theorem decodeKeyText_order_independent_witness :
    (StdEncoding.DecodeString (stringBytes "Zm9v")).bytes
      = (URLEncoding.DecodeString (stringBytes "Zm9v")).bytes ∧
    (decodeKeyText (stringBytes "-_-_")).bytes
      = (decodeKeyTextURLFirst (stringBytes "-_-_")).bytes :=
  ⟨(decodeKeyText_order_independent (stringBytes "Zm9v")).1 (by decide) (by decide),
    (decodeKeyText_order_independent (stringBytes "-_-_")).2 (Or.inr (by decide))⟩

end Gowebpusher
